import Mathlib

/-!
# Zinkd core verification

A shallow embedding of the Zinkd game core (weighted-die / probability
transform engine, maze generator, player movement) together with proofs
about the embedded definitions.

Conventions:
* `f64` complex arithmetic of the die engine (`src/lib/dice.rs`) is embedded
  exactly over the rationals by the type `CQ` (a complex number with rational
  real and imaginary parts).  The two square roots computed by
  `superimpose_pair` are abstracted as parameters constrained by the squaring
  equations they satisfy.
* Random sampling is embedded by passing an explicit list of natural-number
  samples; `gen_range(lo..hi)` applied to sample `n` yields `lo + n % (hi - lo)`,
  so quantifying over all sample lists covers every possible outcome.
* A Rust `panic!` (or an aborting arithmetic overflow) is embedded as `none`;
  loops whose body can fail to make progress are given explicit fuel.
-/

/-- Exact complex number with rational components, embedding `num_complex::Complex64`
as it is used by `src/lib/dice.rs` (exact arithmetic instead of `f64`). -/
@[ext]
structure CQ where
  re : ℚ
  im : ℚ
deriving DecidableEq, Repr

namespace CQ

def add (z w : CQ) : CQ := ⟨z.re + w.re, z.im + w.im⟩
def mul (z w : CQ) : CQ := ⟨z.re * w.re - z.im * w.im, z.re * w.im + z.im * w.re⟩
def neg (z : CQ) : CQ := ⟨-z.re, -z.im⟩

/-- Complex conjugate, embedding `Complex64::conj`. -/
def conj (z : CQ) : CQ := ⟨z.re, -z.im⟩

/-- Squared norm, embedding `Complex64::norm_sqr`. -/
def normSq (z : CQ) : ℚ := z.re * z.re + z.im * z.im

instance : Zero CQ := ⟨⟨0, 0⟩⟩
instance : One CQ := ⟨⟨1, 0⟩⟩
instance : Add CQ := ⟨add⟩
instance : Mul CQ := ⟨mul⟩
instance : Neg CQ := ⟨neg⟩

@[simp] theorem zero_re : (0 : CQ).re = 0 := rfl
@[simp] theorem zero_im : (0 : CQ).im = 0 := rfl
@[simp] theorem one_re : (1 : CQ).re = 1 := rfl
@[simp] theorem one_im : (1 : CQ).im = 0 := rfl
@[simp] theorem add_re (z w : CQ) : (z + w).re = z.re + w.re := rfl
@[simp] theorem add_im (z w : CQ) : (z + w).im = z.im + w.im := rfl
@[simp] theorem mul_re (z w : CQ) : (z * w).re = z.re * w.re - z.im * w.im := rfl
@[simp] theorem mul_im (z w : CQ) : (z * w).im = z.re * w.im + z.im * w.re := rfl
@[simp] theorem neg_re (z : CQ) : (-z).re = -z.re := rfl
@[simp] theorem neg_im (z : CQ) : (-z).im = -z.im := rfl
@[simp] theorem conj_re (z : CQ) : (conj z).re = z.re := rfl
@[simp] theorem conj_im (z : CQ) : (conj z).im = -z.im := rfl

instance : CommRing CQ where
  add_assoc a b c := by ext <;> simp <;> ring
  zero_add a := by ext <;> simp
  add_zero a := by ext <;> simp
  add_comm a b := by ext <;> simp <;> ring
  left_distrib a b c := by ext <;> simp <;> ring
  right_distrib a b c := by ext <;> simp <;> ring
  zero_mul a := by ext <;> simp
  mul_zero a := by ext <;> simp
  mul_assoc a b c := by ext <;> simp <;> ring
  one_mul a := by ext <;> simp
  mul_one a := by ext <;> simp
  mul_comm a b := by ext <;> simp <;> ring
  neg_add_cancel a := by ext <;> simp
  nsmul := nsmulRec
  zsmul := zsmulRec

instance : StarRing CQ where
  star := conj
  star_involutive z := by ext <;> simp
  star_mul z w := by ext <;> simp <;> ring
  star_add z w := by ext <;> simp <;> ring

@[simp] theorem star_def (z : CQ) : star z = conj z := rfl

theorem normSq_eq_conj_mul_re (z : CQ) : (conj z * z).re = normSq z := by
  simp only [mul_re, conj_re, conj_im, normSq]; ring

theorem conj_mul_im (z : CQ) : (conj z * z).im = 0 := by
  simp only [mul_im, conj_re, conj_im]; ring

/-- `re` as an additive homomorphism, used to push `re` through sums. -/
def reHom : CQ →+ ℚ := ⟨⟨re, rfl⟩, fun _ _ => rfl⟩

/-- `im` as an additive homomorphism. -/
def imHom : CQ →+ ℚ := ⟨⟨im, rfl⟩, fun _ _ => rfl⟩

theorem re_sum {α : Type} {s : Finset α} (f : α → CQ) :
    (∑ i ∈ s, f i).re = ∑ i ∈ s, (f i).re :=
  map_sum reHom f s

end CQ

/-! ## The weighted die and weight transforms (`src/lib/dice.rs`) -/

/-- `type Weights = [c64; 6]`. -/
abbrev Weights : Type := Fin 6 → CQ

/-- `type Matrix = [[c64; 6]; 6]`. -/
abbrev DiceMatrix : Type := Matrix (Fin 6) (Fin 6) CQ

/-- `struct WeightedDie { weights: Weights }`. -/
structure WeightedDie where
  weights : Weights

/-- `struct WeightTransform { matrix: Matrix }`. -/
structure WeightTransform where
  matrix : DiceMatrix

namespace WeightTransform

/-- `WeightTransform::identity`: zeros with ones on the diagonal. -/
def identityMatrix : DiceMatrix := fun i j => if i = j then 1 else 0

/-- `WeightTransform::identity()`. -/
def identity : WeightTransform := ⟨identityMatrix⟩

/-- `WeightTransform::matrix_product`: `combined[i][j] = Σ_k a[i][k] * b[k][j]`. -/
def matrix_product (a b : DiceMatrix) : DiceMatrix :=
  fun i j => ∑ k, a i k * b k j

/-- `WeightTransform::combined_with` (the release behavior: the debug build
additionally asserts `is_unitary` on the result). -/
def combined_with (a b : WeightTransform) : WeightTransform :=
  ⟨matrix_product a.matrix b.matrix⟩

/-- The `cc` matrix built inside `WeightTransform::is_unitary`:
`cc[i][j] = matrix[j][i].conj()`. -/
def conj_transpose (m : DiceMatrix) : DiceMatrix := fun i j => CQ.conj (m j i)

/-- `WeightTransform::is_unitary`, with the `1e-12` floating tolerance replaced
by exact equality (the spec's notion of unitarity in exact arithmetic). -/
def is_unitary (m : DiceMatrix) : Prop :=
  matrix_product m (conj_transpose m) = identityMatrix

instance (m : DiceMatrix) : Decidable (is_unitary m) := by
  unfold is_unitary; infer_instance

/-- Imperative entry assignment `matrix[i][j] = v` on an array matrix. -/
def setEntry (m : DiceMatrix) (i j : Fin 6) (v : CQ) : DiceMatrix :=
  fun a b => if a = i ∧ b = j then v else m a b

/-- `WeightTransform::superimpose_pair(v1, v2, transfer)` after the
`v as usize - 1` face-to-index conversion: `v1 v2 : Fin 6` are the converted
indices, and `a`, `b` stand for the two real square roots
`sqrt(transfer / 2)` and `sqrt((2 - transfer) / 2)` computed by the source
(constrained by their squaring equations in the theorems below).

The source starts from the identity and assigns
`matrix[v1][v1] = a; matrix[v2][v2] = a; matrix[v1][v2] = b; matrix[v2][v1] = -b`. -/
def superimpose_pair (v1 v2 : Fin 6) (a b : CQ) : WeightTransform :=
  ⟨setEntry (setEntry (setEntry (setEntry identityMatrix v1 v1 a) v2 v2 a) v1 v2 b) v2 v1 (-b)⟩

/-- `WeightTransform::apply`: `res[i] = Σ_j matrix[i][j] * rhs[j]`. -/
def apply (t : WeightTransform) (rhs : Weights) : Weights :=
  fun i => ∑ j, t.matrix i j * rhs j

end WeightTransform

namespace WeightedDie

/-- `WeightedDie::with_weights` (release behavior; the debug assertion on the
normalization is expressed as a hypothesis where needed). -/
def with_weights (w : Weights) : WeightedDie := ⟨w⟩

/-- `WeightedDie::apply_transformation`. -/
def apply_transformation (d : WeightedDie) (t : WeightTransform) : WeightedDie :=
  ⟨t.apply d.weights⟩

/-- Sum of squared amplitude magnitudes of a weight vector. -/
def normSqSum (w : Weights) : ℚ := ∑ i, CQ.normSq (w i)

/-- The cumulative scan inside `WeightedDie::roll` (`src/lib/dice.rs`):
iterate over the weights with a running index, return `value + 1` when the
remaining sample drops below the current squared magnitude, and model the
final `panic!("Failed to roll a number")` as `none`. -/
def roll_scan : List CQ → ℚ → ℕ → Option ℕ
  | [], _, _ => none
  | w :: ws, r, value =>
    if r < CQ.normSq w then some (value + 1)
    else roll_scan ws (r - CQ.normSq w) (value + 1)

/-- `WeightedDie::roll` as a function of the uniform sample `r ∈ [0,1)`. -/
def roll (d : WeightedDie) (r : ℚ) : Option ℕ :=
  roll_scan (List.ofFn d.weights) r 0

end WeightedDie

/-! The historical integer-weight evolution (`src/src/dice.rs`). -/

/-- `struct WeightedDie { weights: [u32; 6], total: u32 }` of `src/src/dice.rs`. -/
structure WeightedDieInt where
  weights : Fin 6 → ℕ
  total : ℕ

namespace WeightedDieInt

/-- `WeightedDie::with_weights` of `src/src/dice.rs`: total is the sum. -/
def with_weights (w : Fin 6 → ℕ) : WeightedDieInt := ⟨w, ∑ i, w i⟩

/-- The cumulative scan inside `WeightedDie::roll` of `src/src/dice.rs`:
returns the 0-based `value` of the selected face, and falls through to the
trailing `0` expression when the scan exhausts the six weights. -/
def roll_scan : List ℕ → ℕ → ℕ → ℕ
  | [], _, _ => 0
  | w :: ws, r, value => if r < w then value else roll_scan ws (r - w) (value + 1)

/-- `WeightedDie::roll` of `src/src/dice.rs` as a function of the raw sample
`n`: `gen_range(0..total)` panics (`none`) on the empty range `total = 0` and
otherwise yields `n % total`. -/
def roll (d : WeightedDieInt) (n : ℕ) : Option ℕ :=
  if d.total = 0 then none
  else some (roll_scan (List.ofFn d.weights) (n % d.total) 0)

end WeightedDieInt

/-! ## Bridging the dice embedding to Mathlib matrix algebra -/

namespace WeightTransform

theorem matrix_product_eq_mul (a b : DiceMatrix) :
    matrix_product a b = a * b := by
  funext i j
  rw [Matrix.mul_apply]
  rfl

theorem identityMatrix_eq_one : identityMatrix = (1 : DiceMatrix) := by
  funext i j
  rw [Matrix.one_apply]
  rfl

theorem conj_transpose_eq (m : DiceMatrix) : conj_transpose m = m.conjTranspose := rfl

theorem apply_eq_mulVec (t : WeightTransform) (w : Weights) :
    t.apply w = t.matrix.mulVec w := rfl

end WeightTransform

namespace WeightedDie

theorem normSqSum_eq_dot_re (w : Weights) :
    normSqSum w = (Matrix.dotProduct (star w) w).re := by
  unfold normSqSum Matrix.dotProduct
  rw [CQ.re_sum]
  refine Finset.sum_congr rfl fun i _ => ?_
  rw [Pi.star_apply, CQ.star_def, CQ.normSq_eq_conj_mul_re]

end WeightedDie

namespace WeightedDie

theorem dot_preserved_of_unitary (t : WeightTransform)
    (h : WeightTransform.is_unitary t.matrix) (w : Weights) :
    Matrix.dotProduct (star (t.apply w)) (t.apply w) = Matrix.dotProduct (star w) w := by
  have hMul : t.matrix * t.matrix.conjTranspose = 1 := by
    have := h
    unfold WeightTransform.is_unitary at this
    rw [WeightTransform.matrix_product_eq_mul, WeightTransform.conj_transpose_eq,
      WeightTransform.identityMatrix_eq_one] at this
    exact this
  have hMul' : t.matrix.conjTranspose * t.matrix = 1 := Matrix.mul_eq_one_comm.mp hMul
  rw [WeightTransform.apply_eq_mulVec, Matrix.star_mulVec, Matrix.dotProduct_mulVec,
    Matrix.vecMul_vecMul, hMul', Matrix.vecMul_one]

theorem normSqSum_preserved (t : WeightTransform)
    (h : WeightTransform.is_unitary t.matrix) (w : Weights) :
    normSqSum (t.apply w) = normSqSum w := by
  rw [normSqSum_eq_dot_re, normSqSum_eq_dot_re, dot_preserved_of_unitary t h w]

end WeightedDie

/-- C3: for every `WeightTransform` whose matrix `M` satisfies
`M × conjugate-transpose(M) = identity` and every amplitude vector `w` with
`Σ_i |w_i|² = 1`, the vector produced by `apply(w)` — and hence the die state
after `apply_transformation` — again satisfies `Σ_i |result_i|² = 1`, exactly,
in exact complex arithmetic. -/
theorem unitary_transform_preserves_normalization (t : WeightTransform)
    (hunit : WeightTransform.is_unitary t.matrix) (w : Weights)
    (hw : WeightedDie.normSqSum w = 1) :
    WeightedDie.normSqSum (t.apply w) = 1 ∧
      WeightedDie.normSqSum (((WeightedDie.with_weights w).apply_transformation t).weights) = 1 := by
  have key : WeightedDie.normSqSum (t.apply w) = 1 := by
    rw [WeightedDie.normSqSum_preserved t hunit w, hw]
  exact ⟨key, key⟩

/-- Witness for C3 at the identity transform and a basis amplitude vector. -/
theorem unitary_transform_preserves_normalization_witness :
    WeightedDie.normSqSum
        (WeightTransform.identity.apply (fun i => if i = 0 then 1 else 0)) = 1 ∧
      WeightedDie.normSqSum (((WeightedDie.with_weights (fun i => if i = 0 then 1 else 0)).apply_transformation
        WeightTransform.identity).weights) = 1 :=
  unitary_transform_preserves_normalization WeightTransform.identity
    (by with_unfolding_all decide) (fun i => if i = 0 then 1 else 0)
    (by with_unfolding_all decide)

/-- C5: `combined_with` is the matrix product `self_matrix × other_matrix`,
and applying the combination is applying `other` first and then `self`. -/
theorem combined_with_is_composition (a b : WeightTransform) (w : Weights) :
    (a.combined_with b).matrix = WeightTransform.matrix_product a.matrix b.matrix ∧
      (a.combined_with b).apply w = a.apply (b.apply w) := by
  refine ⟨rfl, ?_⟩
  rw [WeightTransform.apply_eq_mulVec, WeightTransform.apply_eq_mulVec,
    WeightTransform.apply_eq_mulVec]
  show (WeightTransform.matrix_product a.matrix b.matrix).mulVec w
      = a.matrix.mulVec (b.matrix.mulVec w)
  rw [WeightTransform.matrix_product_eq_mul, ← Matrix.mulVec_mulVec]

namespace CQ

@[simp] theorem conj_zero : conj 0 = 0 := by ext <;> simp
@[simp] theorem conj_one : conj 1 = 1 := by ext <;> simp
@[simp] theorem conj_neg (z : CQ) : conj (-z) = -conj z := by ext <;> simp

end CQ

namespace WeightTransform

theorem superimpose_entry (v1 v2 : Fin 6) (hne : v1 ≠ v2) (a b : CQ) (i j : Fin 6) :
    (superimpose_pair v1 v2 a b).matrix i j =
      if i = v1 then (if j = v1 then a else if j = v2 then b else 0)
      else if i = v2 then (if j = v1 then -b else if j = v2 then a else 0)
      else if i = j then 1 else 0 := by
  simp only [superimpose_pair, setEntry, identityMatrix]
  by_cases h1 : i = v1 <;> by_cases h2 : i = v2 <;> by_cases h3 : j = v1 <;>
    by_cases h4 : j = v2 <;> simp_all <;> (intro hEq; subst hEq; simp_all)

theorem sum_two_support {M : Type} [AddCommMonoid M] (v1 v2 : Fin 6) (hne : v1 ≠ v2)
    (f : Fin 6 → M) (h : ∀ k, k ≠ v1 → k ≠ v2 → f k = 0) :
    ∑ k, f k = f v1 + f v2 := by
  have hsub : ({v1, v2} : Finset (Fin 6)) ⊆ Finset.univ := Finset.subset_univ _
  have := Finset.sum_subset hsub (f := f) ?_
  · rw [← this, Finset.sum_pair hne]
  · intro x _ hx
    simp only [Finset.mem_insert, Finset.mem_singleton] at hx
    push_neg at hx
    exact h x hx.1 hx.2

theorem sum_single_support {M : Type} [AddCommMonoid M] (v : Fin 6)
    (f : Fin 6 → M) (h : ∀ k, k ≠ v → f k = 0) :
    ∑ k, f k = f v :=
  Finset.sum_eq_single v (fun k _ hk => h k hk) (fun h' => absurd (Finset.mem_univ v) h')

end WeightTransform

namespace WeightTransform

theorem identityMatrix_apply (i j : Fin 6) :
    identityMatrix i j = if i = j then 1 else 0 := rfl

theorem superimpose_is_unitary (v1 v2 : Fin 6) (hne : v1 ≠ v2) (a b : CQ)
    (hca : CQ.conj a = a) (hcb : CQ.conj b = b) (hunit1 : a * a + b * b = 1) :
    is_unitary (superimpose_pair v1 v2 a b).matrix := by
  unfold is_unitary
  funext i j
  have hE := superimpose_entry v1 v2 hne a b
  have hrow1 : ∀ k, k ≠ v1 → k ≠ v2 → (superimpose_pair v1 v2 a b).matrix v1 k = 0 := by
    intro k h1 h2
    simp [hE, h1, h2]
  have hrow2 : ∀ k, k ≠ v1 → k ≠ v2 → (superimpose_pair v1 v2 a b).matrix v2 k = 0 := by
    intro k h1 h2
    simp [hE, h1, h2, Ne.symm hne]
  have hrowO : ∀ x k, x ≠ v1 → x ≠ v2 → x ≠ k →
      (superimpose_pair v1 v2 a b).matrix x k = 0 := by
    intro x k h1 h2 h3
    simp [hE, h1, h2, h3]
  show (∑ k, (superimpose_pair v1 v2 a b).matrix i k *
      CQ.conj ((superimpose_pair v1 v2 a b).matrix j k)) = identityMatrix i j
  by_cases hi1 : i = v1
  · rw [hi1]
    rw [sum_two_support v1 v2 hne _
      (fun k h1 h2 => by rw [hrow1 k h1 h2, zero_mul])]
    by_cases hj1 : j = v1
    · rw [hj1]
      simp only [identityMatrix_apply, if_pos rfl]
      simp [hE, hne, Ne.symm hne]
      rw [hca, hcb]
      linear_combination hunit1
    · by_cases hj2 : j = v2
      · rw [hj2]
        simp only [identityMatrix_apply, if_neg hne]
        simp [hE, hne, Ne.symm hne]
        rw [hca, hcb]
        ring
      · have h1 : (superimpose_pair v1 v2 a b).matrix j v1 = 0 :=
          hrowO j v1 hj1 hj2 (fun h => hj1 h)
        have h2 : (superimpose_pair v1 v2 a b).matrix j v2 = 0 :=
          hrowO j v2 hj1 hj2 (fun h => hj2 h)
        rw [h1, h2]
        simp only [CQ.conj_zero, mul_zero, add_zero, identityMatrix_apply]
        exact (if_neg (fun h : v1 = j => hj1 h.symm)).symm
  · by_cases hi2 : i = v2
    · rw [hi2]
      rw [sum_two_support v1 v2 hne _
        (fun k h1 h2 => by rw [hrow2 k h1 h2, zero_mul])]
      by_cases hj1 : j = v1
      · rw [hj1]
        simp only [identityMatrix_apply, if_neg (Ne.symm hne)]
        simp [hE, hne, Ne.symm hne]
        rw [hca, hcb]
        ring
      · by_cases hj2 : j = v2
        · rw [hj2]
          simp only [identityMatrix_apply, if_pos rfl]
          simp [hE, hne, Ne.symm hne]
          rw [hca, hcb]
          linear_combination hunit1
        · have h1 : (superimpose_pair v1 v2 a b).matrix j v1 = 0 :=
            hrowO j v1 hj1 hj2 (fun h => hj1 h)
          have h2 : (superimpose_pair v1 v2 a b).matrix j v2 = 0 :=
            hrowO j v2 hj1 hj2 (fun h => hj2 h)
          rw [h1, h2]
          simp only [CQ.conj_zero, mul_zero, add_zero, identityMatrix_apply]
          exact (if_neg (fun h : v2 = j => hj2 h.symm)).symm
    · rw [sum_single_support i _
        (fun k hk => by rw [hrowO i k hi1 hi2 (fun h => hk h.symm), zero_mul])]
      have hEi : (superimpose_pair v1 v2 a b).matrix i i = 1 := by
        simp [hE, hi1, hi2]
      rw [hEi, one_mul]
      by_cases hj1 : j = v1
      · rw [hj1]
        rw [hrow1 i hi1 hi2]
        simp [identityMatrix_apply, hi1]
      · by_cases hj2 : j = v2
        · rw [hj2]
          rw [hrow2 i hi1 hi2]
          simp [identityMatrix_apply, hi2]
        · by_cases hij : i = j
          · rw [← hij]
            rw [hEi]
            simp [identityMatrix_apply]
          · rw [hrowO j i hj1 hj2 (fun h => hij h.symm)]
            simp [identityMatrix_apply, hij]

end WeightTransform

namespace WeightTransform

theorem superimpose_apply_row1 (v1 v2 : Fin 6) (hne : v1 ≠ v2) (a b : CQ) (w : Weights) :
    (superimpose_pair v1 v2 a b).apply w v1 = a * w v1 + b * w v2 := by
  have hE := superimpose_entry v1 v2 hne a b
  show (∑ k, (superimpose_pair v1 v2 a b).matrix v1 k * w k) = a * w v1 + b * w v2
  rw [sum_two_support v1 v2 hne _
    (fun k h1 h2 => by simp [hE, h1, h2])]
  simp [hE, hne, Ne.symm hne]

theorem superimpose_apply_row2 (v1 v2 : Fin 6) (hne : v1 ≠ v2) (a b : CQ) (w : Weights) :
    (superimpose_pair v1 v2 a b).apply w v2 = a * w v2 - b * w v1 := by
  have hE := superimpose_entry v1 v2 hne a b
  show (∑ k, (superimpose_pair v1 v2 a b).matrix v2 k * w k) = a * w v2 - b * w v1
  rw [sum_two_support v1 v2 hne _
    (fun k h1 h2 => by simp [hE, h1, h2, Ne.symm hne])]
  simp [hE, hne, Ne.symm hne]
  ring

end WeightTransform

/-- C4: for distinct faces and any strength `s ∈ [0,1]`, the matrix built by
`superimpose_pair(to, from, s)` — with `a = sqrt(s/2)` and `b = sqrt((2-s)/2)`
abstracted as the nonnegative real values satisfying their squaring
equations — is unitary (matrix times conjugate transpose equals the
identity, exactly), its row for component `to = v1` maps old weights to
`a*old_to + b*old_from`, and its row for `from = v2` is the same combination
with the sign of the cross-term flipped. -/
theorem superimpose_pair_unitary_and_rows (v1 v2 : Fin 6) (hne : v1 ≠ v2) (s : ℚ)
    (hs0 : 0 ≤ s) (hs1 : s ≤ 1) (a b : CQ)
    (haim : a.im = 0) (hbim : b.im = 0) (hare : 0 ≤ a.re) (hbre : 0 ≤ b.re)
    (ha : a.re * a.re = s / 2) (hb : b.re * b.re = (2 - s) / 2) :
    WeightTransform.is_unitary (WeightTransform.superimpose_pair v1 v2 a b).matrix ∧
      ∀ w : Weights,
        (WeightTransform.superimpose_pair v1 v2 a b).apply w v1 = a * w v1 + b * w v2 ∧
        (WeightTransform.superimpose_pair v1 v2 a b).apply w v2 = a * w v2 - b * w v1 := by
  have hca : CQ.conj a = a := by ext <;> simp [haim]
  have hcb : CQ.conj b = b := by ext <;> simp [hbim]
  have hunit1 : a * a + b * b = 1 := by
    ext
    · simp [haim, hbim]
      rw [ha, hb]
      ring
    · simp [haim, hbim]
  exact ⟨WeightTransform.superimpose_is_unitary v1 v2 hne a b hca hcb hunit1,
    fun w => ⟨WeightTransform.superimpose_apply_row1 v1 v2 hne a b w,
      WeightTransform.superimpose_apply_row2 v1 v2 hne a b w⟩⟩

/-- Witness for C4 at `to = 0`, `from = 1`, strength `18/25`,
`a = 3/5`, `b = 4/5`. -/
theorem superimpose_pair_unitary_and_rows_witness :
    WeightTransform.is_unitary
        (WeightTransform.superimpose_pair 0 1 ⟨3/5, 0⟩ ⟨4/5, 0⟩).matrix ∧
      ∀ w : Weights,
        (WeightTransform.superimpose_pair 0 1 ⟨3/5, 0⟩ ⟨4/5, 0⟩).apply w 0
            = ⟨3/5, 0⟩ * w 0 + ⟨4/5, 0⟩ * w 1 ∧
        (WeightTransform.superimpose_pair 0 1 ⟨3/5, 0⟩ ⟨4/5, 0⟩).apply w 1
            = ⟨3/5, 0⟩ * w 1 - ⟨4/5, 0⟩ * w 0 :=
  superimpose_pair_unitary_and_rows 0 1 (by decide) (18/25)
    (by with_unfolding_all decide) (by with_unfolding_all decide)
    ⟨3/5, 0⟩ ⟨4/5, 0⟩ rfl rfl
    (by with_unfolding_all decide) (by with_unfolding_all decide)
    (by with_unfolding_all decide) (by with_unfolding_all decide)

namespace CQ

theorem normSq_nonneg (z : CQ) : 0 ≤ normSq z :=
  add_nonneg (mul_self_nonneg z.re) (mul_self_nonneg z.im)

end CQ

namespace WeightedDie

theorem roll_scan_bounds :
    ∀ (l : List CQ) (r : ℚ) (v k : ℕ), roll_scan l r v = some k → v < k ∧ k ≤ v + l.length := by
  intro l
  induction l with
  | nil => intro r v k h; simp [roll_scan] at h
  | cons w ws ih =>
    intro r v k h
    rw [roll_scan] at h
    split_ifs at h with hr
    · obtain rfl : v + 1 = k := Option.some.inj h
      simp
    · have := ih _ _ _ h
      constructor
      · omega
      · simpa [Nat.add_assoc, Nat.add_comm 1 ws.length] using this.2

theorem roll_scan_exhaust :
    ∀ (l : List CQ) (r : ℚ) (v : ℕ), (l.map CQ.normSq).sum ≤ r → roll_scan l r v = none := by
  intro l
  induction l with
  | nil => intro r v _; rfl
  | cons w ws ih =>
    intro r v h
    rw [roll_scan]
    have hrest : 0 ≤ (ws.map CQ.normSq).sum :=
      List.sum_nonneg (by
        intro x hx
        obtain ⟨z, _, rfl⟩ := List.mem_map.mp hx
        exact CQ.normSq_nonneg z)
    rw [List.map_cons, List.sum_cons] at h
    rw [if_neg (by linarith)]
    exact ih _ _ (by linarith)

theorem normSqSum_eq_list_sum (w : Weights) :
    ((List.ofFn w).map CQ.normSq).sum = normSqSum w := by
  rw [List.map_ofFn, List.sum_ofFn]
  rfl

end WeightedDie

namespace WeightedDieInt

theorem roll_scan_cases :
    ∀ (l : List ℕ) (r v : ℕ), roll_scan l r v = 0 ∨ roll_scan l r v < v + l.length := by
  intro l
  induction l with
  | nil => intro r v; left; rfl
  | cons w ws ih =>
    intro r v
    rw [roll_scan]
    split_ifs with hr
    · right; simp
    · rcases ih (r - w) (v + 1) with h | h
      · left; exact h
      · right; rw [List.length_cons]; omega

theorem roll_scan_exhaust_int :
    ∀ (l : List ℕ) (r v : ℕ), l.sum ≤ r → roll_scan l r v = 0 := by
  intro l
  induction l with
  | nil => intro r v _; rfl
  | cons w ws ih =>
    intro r v h
    rw [List.sum_cons] at h
    rw [roll_scan, if_neg (by omega)]
    exact ih _ _ (by omega)

end WeightedDieInt

/-- C8 (amended): in the complex-amplitude evolution (`src/lib/dice.rs`),
a `roll()` whose cumulative scan over the six faces is exhausted — in
particular on an all-zero weight vector — hits
`panic!("Failed to roll a number")` (modelled as `none`, never a silent
default), and a normal return is a face numbered 1 through 6.  In the
integer-weight evolution (`src/src/dice.rs`) the faces are numbered 0
through 5 instead: a normal return is at most 5, an exhausted cumulative
scan silently falls through to the default value `0`, and `roll()` on an
all-zero weight vector panics inside `gen_range(0..0)` (the empty range)
before the scan even starts. -/
theorem roll_exhaustion_and_face_ranges :
    (∀ (d : WeightedDie) (r : ℚ) (k : ℕ), d.roll r = some k → 1 ≤ k ∧ k ≤ 6) ∧
    (∀ (d : WeightedDie) (r : ℚ), WeightedDie.normSqSum d.weights ≤ r → d.roll r = none) ∧
    (∀ r : ℚ, 0 ≤ r → (WeightedDie.with_weights (fun _ => 0)).roll r = none) ∧
    (∀ (l : List ℕ) (r v : ℕ), l.sum ≤ r → WeightedDieInt.roll_scan l r v = 0) ∧
    (∀ (d : WeightedDieInt) (n k : ℕ), d.roll n = some k → k ≤ 5) ∧
    (∀ w : Fin 6 → ℕ, (∀ i, w i = 0) → ∀ n, (WeightedDieInt.with_weights w).roll n = none) := by
  refine ⟨?_, ?_, ?_, ?_, ?_, ?_⟩
  · intro d r k h
    have := WeightedDie.roll_scan_bounds _ _ _ _ h
    simpa using this
  · intro d r h
    apply WeightedDie.roll_scan_exhaust
    rw [WeightedDie.normSqSum_eq_list_sum]
    exact h
  · intro r h
    apply WeightedDie.roll_scan_exhaust
    rw [WeightedDie.normSqSum_eq_list_sum]
    simpa [WeightedDie.normSqSum, WeightedDie.with_weights, CQ.normSq] using h
  · exact WeightedDieInt.roll_scan_exhaust_int
  · intro d n k h
    unfold WeightedDieInt.roll at h
    split_ifs at h with ht
    have hk : WeightedDieInt.roll_scan (List.ofFn d.weights) (n % d.total) 0 = k :=
      Option.some.inj h
    rcases WeightedDieInt.roll_scan_cases (List.ofFn d.weights) (n % d.total) 0 with h0 | hlt
    · omega
    · rw [hk] at hlt
      simp only [List.length_ofFn, Fintype.card_fin, Nat.zero_add] at hlt
      omega
  · intro w hw n
    unfold WeightedDieInt.roll
    rw [if_pos]
    show (∑ i, w i) = 0
    simp [hw]

/-- Witness for C8 (amended), exercising every conjunct at concrete dice. -/
theorem roll_exhaustion_and_face_ranges_witness :
    (1 ≤ 1 ∧ 1 ≤ 6) ∧
      (WeightedDie.with_weights (fun _ => 0)).roll 0 = none ∧
      WeightedDieInt.roll_scan [1, 1, 1, 1, 1, 1] 6 0 = 0 ∧
      (0 : ℕ) ≤ 5 ∧
      (WeightedDieInt.with_weights (fun _ => 0)).roll 3 = none :=
  ⟨roll_exhaustion_and_face_ranges.1 (WeightedDie.with_weights (fun _ => ⟨1, 0⟩)) (1/2) 1
      (by with_unfolding_all rfl),
    roll_exhaustion_and_face_ranges.2.2.1 0 le_rfl,
    roll_exhaustion_and_face_ranges.2.2.2.1 [1, 1, 1, 1, 1, 1] 6 0 (by decide),
    roll_exhaustion_and_face_ranges.2.2.2.2.1 (WeightedDieInt.with_weights (fun _ => 1)) 0 0
      (by with_unfolding_all rfl),
    roll_exhaustion_and_face_ranges.2.2.2.2.2 (fun _ => 0) (fun _ => rfl) 3⟩

/-- Counterexample to C8 as stated: the integer-weight evolution returns face
`0` from a normal roll on a fair die (faces there are 0-based, not 1..6), and
an exhausted scan returns the silent default `0` instead of aborting. -/
theorem roll_counterexample_int_evolution :
    (WeightedDieInt.with_weights (fun _ => 1)).roll 0 = some 0 ∧
      ¬(1 ≤ (0 : ℕ)) ∧
      WeightedDieInt.roll_scan [1, 1, 1, 1, 1, 1] 7 0 = 0 :=
  ⟨by with_unfolding_all rfl, by decide, by decide⟩

/-! ## Randomized item construction (`src/lib/items.rs`), data level -/

/-- The random parameters `(dest, faces, strengths)` produced by
`random_transfer_parameters`; the strengths are kept as the raw samples the
source feeds into `gen_range(0.5..=1.0)`. -/
structure TransferParams where
  dest : ℕ
  faces : List ℕ
  strengths : List ℕ
deriving DecidableEq, Repr

/-- Data contents of a randomly generated item (`random_item`): which of the
three `WeightTransfer` kinds was chosen, and the parameter triples drawn. -/
structure ItemSpec where
  kind : ℕ
  params : List TransferParams
deriving DecidableEq, Repr

/-- Draw the next raw sample from the explicit sample list (`0` once the list
is exhausted; a returning execution consumes finitely many samples, so every
real outcome is represented by some list). -/
def nextNat (rng : List ℕ) : ℕ × List ℕ := (rng.headD 0, rng.tail)

/-- The duplicate-face rejection loop of `random_transfer_parameters`:
`next = gen_range(1..=6)` redrawn `while faces.contains(&next) || dest == next`.
Each draw consumes one sample; running out of samples is modelled as `none`. -/
def pick_face (dest : ℕ) (faces : List ℕ) : List ℕ → Option (ℕ × List ℕ)
  | [] => none
  | n :: rest =>
    let next := 1 + n % 6
    if faces.contains next ∨ dest = next then pick_face dest faces rest
    else some (next, rest)

/-- The `for _ in 0..count` body of `random_transfer_parameters`, pushing one
accepted face and one strength sample per iteration. -/
def transfer_params_loop (dest : ℕ) :
    ℕ → List ℕ → List ℕ → List ℕ → Option ((List ℕ × List ℕ) × List ℕ)
  | 0, faces, strengths, rng => some ((faces, strengths), rng)
  | count + 1, faces, strengths, rng =>
    match pick_face dest faces rng with
    | none => none
    | some (next, r1) =>
      let (s, r2) := nextNat r1
      transfer_params_loop dest count (faces ++ [next]) (strengths ++ [s]) r2

/-- `random_transfer_parameters(count)`: draw `dest = gen_range(1..=6)`, then
run the face/strength loop. -/
def random_transfer_parameters (count : ℕ) (rng : List ℕ) :
    Option (TransferParams × List ℕ) :=
  let (nd, r1) := nextNat rng
  let dest := 1 + nd % 6
  match transfer_params_loop dest count [] [] r1 with
  | none => none
  | some ((faces, strengths), r2) => some (⟨dest, faces, strengths⟩, r2)

/-- `random_item()`: select among the three registered item kinds
(`gen_range(0..ITEM_TYPES)`) and draw that kind's transfer parameters
(`random_single` draws one triple with one face, `random_double` one triple
with two faces, `random_pair` two independent triples with one face each). -/
def random_item (rng : List ℕ) : Option (ItemSpec × List ℕ) :=
  let (nt, r1) := nextNat rng
  match nt % 3 with
  | 0 =>
    match random_transfer_parameters 1 r1 with
    | none => none
    | some (p, r2) => some (⟨0, [p]⟩, r2)
  | 1 =>
    match random_transfer_parameters 2 r1 with
    | none => none
    | some (p, r2) => some (⟨1, [p]⟩, r2)
  | _ =>
    match random_transfer_parameters 1 r1 with
    | none => none
    | some (p1, r2) =>
      match random_transfer_parameters 1 r2 with
      | none => none
      | some (p2, r3) => some (⟨2, [p1, p2]⟩, r3)

/-! ## The map (`src/lib/map.rs`) -/

/-- Direction bit `NORTH = 1 << 0`. -/
def NORTH : ℕ := 1
/-- Direction bit `SOUTH = 1 << 1`. -/
def SOUTH : ℕ := 2
/-- Direction bit `EAST = 1 << 2`. -/
def EAST : ℕ := 4
/-- Direction bit `WEST = 1 << 3`. -/
def WEST : ℕ := 8

/-- `struct Coordinates(pub usize, pub usize)`: `x` is component `0`, `y` is
component `1`. -/
@[ext]
structure Coordinates where
  x : ℕ
  y : ℕ
deriving DecidableEq, Repr

/-- `enum GridCell { Wall, Path(Direction, PossibleItem), Goal(Direction) }`. -/
inductive GridCell where
  | Wall : GridCell
  | Path : ℕ → Option ItemSpec → GridCell
  | Goal : ℕ → GridCell
deriving DecidableEq, Repr

/-- `Coordinates::step`: `some (some c)` models a successful move (`true` with
the mutated coordinate), `some none` models the `false` return at a grid
edge, and `none` models the `panic!("Cannot move in this direction")` arm for
a non-cardinal direction mask. -/
def Coordinates.step (c : Coordinates) (direction width height : ℕ) :
    Option (Option Coordinates) :=
  if direction = NORTH then
    some (if height - 1 ≤ c.y then none else some ⟨c.x, c.y + 1⟩)
  else if direction = SOUTH then
    some (if c.y = 0 then none else some ⟨c.x, c.y - 1⟩)
  else if direction = EAST then
    some (if width - 1 ≤ c.x then none else some ⟨c.x + 1, c.y⟩)
  else if direction = WEST then
    some (if c.x = 0 then none else some ⟨c.x - 1, c.y⟩)
  else none

/-- `struct Map { grid, goal, starting_points }`, the `Vec<Vec<GridCell>>`
grid embedded as a total function (every access the source performs stays
inside `width × height`). -/
structure Map where
  width : ℕ
  height : ℕ
  grid : Coordinates → GridCell
  goal : Coordinates
  starting_points : List Coordinates

namespace Map

/-- `Map::cell_at`. -/
def cell_at (m : Map) (c : Coordinates) : GridCell := m.grid c

/-- `Map::set_cell`. -/
def set_cell (m : Map) (c : Coordinates) (cell : GridCell) : Map :=
  { m with grid := fun c2 => if c2 = c then cell else m.grid c2 }

/-- `Map::supplement_cell`: a Wall becomes a Path with exactly the new bits,
a Path or Goal ORs the new bits into its mask. -/
def supplement_cell (m : Map) (c : Coordinates) (direction : ℕ) : Map :=
  match m.cell_at c with
  | GridCell.Wall => m.set_cell c (GridCell.Path direction none)
  | GridCell.Path existing item =>
    m.set_cell c (GridCell.Path (existing ||| direction) item)
  | GridCell.Goal existing => m.set_cell c (GridCell.Goal (existing ||| direction))

/-- `Map::straight_path`, the range iterator made explicit as a list. -/
def straight_path : Map → List ℕ → Bool → ℕ → Map
  | m, [], _, _ => m
  | m, coord :: rest, x_range, fixed_coord =>
    let node := if x_range then Coordinates.mk coord fixed_coord
      else Coordinates.mk fixed_coord coord
    let direction := if x_range then EAST ||| WEST else NORTH ||| SOUTH
    straight_path (m.supplement_cell node direction) rest x_range fixed_coord

/-- The Rust half-open range `a..b` as a list. -/
def rustRange (a b : ℕ) : List ℕ := List.range' a (b - a)

/-- The value of the `corner` bitmask after the horizontal leg of
`Map::connect_cells` (`corner |= WEST` / `corner |= EAST` / left `0`). -/
def corner_h (start stop : Coordinates) : ℕ :=
  if start.x ≠ stop.x then (if start.x < stop.x then WEST else EAST) else 0

/-- The value of the `corner` bitmask after the vertical leg of
`Map::connect_cells` (`corner |= NORTH` / `corner |= SOUTH` / reset to `0`). -/
def corner_v (start stop : Coordinates) : ℕ :=
  if start.y ≠ stop.y then
    corner_h start stop ||| (if start.y < stop.y then NORTH else SOUTH)
  else 0

/-- `Map::connect_cells` (the second endpoint is called `stop` because `end`
is reserved).  The `corner` accumulator of the source is data-independent of
the grid, so it is factored out as `corner_h` / `corner_v`. -/
def connect_cells (m : Map) (start stop : Coordinates) : Map :=
  if start = stop then m
  else
    let x0 := start.x
    let y0 := start.y
    let x1 := stop.x
    let y1 := stop.y
    let m1 : Map :=
      if x0 ≠ x1 then
        if x0 < x1 then
          (m.supplement_cell start EAST).straight_path (rustRange (x0 + 1) x1) true y0
        else
          (m.supplement_cell start WEST).straight_path (rustRange (x1 + 1) x0) true y0
      else
        if y0 < y1 then m.supplement_cell start NORTH else m.supplement_cell start SOUTH
    let m2 : Map :=
      if y0 ≠ y1 then
        if y0 < y1 then
          (m1.supplement_cell stop SOUTH).straight_path (rustRange (y0 + 1) y1) false x1
        else
          (m1.supplement_cell stop NORTH).straight_path (rustRange (y1 + 1) y0) false x1
      else
        m1.supplement_cell stop (corner_h start stop)
    m2.supplement_cell ⟨x1, y0⟩ (corner_v start stop)

/-- `Map::place_item`: `panic!("Cannot place item on non-path square")` is
`none`; on a Path cell the optional item slot is replaced. -/
def place_item (m : Map) (c : Coordinates) (item : ItemSpec) : Option Map :=
  match m.cell_at c with
  | GridCell.Path exits _ => some (m.set_cell c (GridCell.Path exits (some item)))
  | _ => none

/-- `Map::get_random_cell`: `gen_range(0..width)` and `gen_range(0..height)`. -/
def get_random_cell (m : Map) (rng : List ℕ) : Coordinates × List ℕ :=
  let (nx, r1) := nextNat rng
  let (ny, r2) := nextNat r1
  (⟨nx % m.width, ny % m.height⟩, r2)

/-- The body of the `loop` in `Map::get_random_empty_cell`, with explicit
fuel.  The `Goal` match arm does nothing — so the Rust loop spins forever
once the candidate cell is the Goal — and the other arm resamples on a
starting-point collision or breaks with the candidate. -/
def empty_cell_loop (m : Map) : ℕ → Coordinates → List ℕ → Option (Coordinates × List ℕ)
  | 0, _, _ => none
  | fuel + 1, cell, rng =>
    match m.cell_at cell with
    | GridCell.Goal _ => empty_cell_loop m fuel cell rng
    | _ =>
      if cell ∈ m.starting_points then
        let (c2, r2) := m.get_random_cell rng
        empty_cell_loop m fuel c2 r2
      else some (cell, rng)

/-- `Map::get_random_empty_cell`.  The fuel `rng.length + 1` covers every
terminating execution, because each resampling iteration consumes samples. -/
def get_random_empty_cell (m : Map) (rng : List ℕ) : Option (Coordinates × List ℕ) :=
  let (c, r1) := m.get_random_cell rng
  empty_cell_loop m (r1.length + 1) c r1

/-- `Map::get_random_cell_with_distance`.  The `usize` subtraction `y0 - dy`
in the first branch underflows when `y0 < dy` — an abort in a debug build, a
wrapped out-of-range coordinate in release — modelled as `none`. -/
def get_random_cell_with_distance (m : Map) (target : Coordinates) (distance : ℕ)
    (rng : List ℕ) : Option (Coordinates × List ℕ) :=
  let x0 := target.x
  let y0 := target.y
  let x_low := if x0 < distance then 0 else x0 - distance
  let xhi := min (x0 + distance) (m.width - 1)
  let (nx, r1) := nextNat rng
  let x := x_low + nx % (xhi + 1 - x_low)
  let dx := max x0 x - min x0 x
  let dy := distance - dx
  if m.height ≤ y0 + dy then
    if dy ≤ y0 then some (⟨x, y0 - dy⟩, r1) else none
  else if y0 < dy then some (⟨x, y0 + dy⟩, r1)
  else
    let (nb, r2) := nextNat r1
    if nb % 2 = 0 then some (⟨x, y0 - dy⟩, r2)
    else some (⟨x, y0 + dy⟩, r2)

/-- The per-player loop of `generate_random_map` (carve a start at the target
travel distance and connect it to the goal, recording the start). -/
def players_loop (travel : ℕ) : ℕ → Map → List ℕ → Option (Map × List ℕ)
  | 0, m, rng => some (m, rng)
  | n + 1, m, rng =>
    match m.get_random_cell_with_distance m.goal travel rng with
    | none => none
    | some (start, r1) =>
      let m2 := m.connect_cells start m.goal
      players_loop travel n
        { m2 with starting_points := m2.starting_points ++ [start] } r1

/-- The item-pair loop of `generate_random_map`: two empty cells, two random
items, a connecting corridor, one item placed at each endpoint; identical
cells are skipped with `continue`. -/
def items_loop : ℕ → Map → List ℕ → Option (Map × List ℕ)
  | 0, m, rng => some (m, rng)
  | n + 1, m, rng =>
    match m.get_random_empty_cell rng with
    | none => none
    | some (square1, r1) =>
      match random_item r1 with
      | none => none
      | some (item1, r2) =>
        match m.get_random_empty_cell r2 with
        | none => none
        | some (square2, r3) =>
          if square1 = square2 then items_loop n m r3
          else
            match random_item r3 with
            | none => none
            | some (item2, r4) =>
              let m2 := m.connect_cells square1 square2
              match m2.place_item square1 item1 with
              | none => none
              | some m3 =>
                match m3.place_item square2 item2 with
                | none => none
                | some m4 => items_loop n m4 r4

/-- `(total_squares * item_density).round() as usize` for a nonnegative
density: round half away from zero is `⌊q + 1/2⌋`. -/
def ratRound (q : ℚ) : ℕ := (q + 1/2).floor.toNat

/-- `Map::generate_random_map`. -/
def generate_random_map (map_width map_height : ℕ) (players : ℕ)
    (item_density : ℚ) (travel_distance : ℕ) (rng : List ℕ) : Option Map :=
  let m0 : Map := ⟨map_width, map_height, fun _ => GridCell.Wall, ⟨0, 0⟩, []⟩
  let (goal, r1) := m0.get_random_cell rng
  let m1 := { m0 with goal := goal }
  let m2 := m1.set_cell goal (GridCell.Goal 0)
  match players_loop travel_distance players m2 r1 with
  | none => none
  | some (m3, r2) =>
    let item_squares := ratRound ((map_width * map_height : ℚ) * item_density)
    match items_loop (item_squares / 2) m3 r2 with
    | none => none
    | some (m4, _) => some m4

end Map

namespace Map

/-- The exit bitmask carried by the cell at `c` (a Wall carries no exits). -/
def exitsAt (m : Map) (c : Coordinates) : ℕ :=
  match m.cell_at c with
  | GridCell.Wall => 0
  | GridCell.Path exits _ => exits
  | GridCell.Goal exits => exits

/-- Walk a list of single-cardinal directions through the grid, requiring at
each step that the current cell's exit bitmask contains the direction bit and
that the step stays on the grid; returns the final coordinate. -/
def follow (m : Map) : Coordinates → List ℕ → Option Coordinates
  | c, [] => some c
  | c, d :: rest =>
    if d &&& m.exitsAt c = 0 then none
    else
      match c.step d m.width m.height with
      | some (some c2) => follow m c2 rest
      | _ => none

/-- Every recorded starting point is connected to the Goal coordinates by a
path that follows matching exit bits (the flood-fill reachability of the
spec). -/
def map_connected (m : Map) : Prop :=
  ∀ s ∈ m.starting_points, ∃ dirs : List ℕ, follow m s dirs = some m.goal

/-- The exit bit `d` at cell `c` points at an in-bounds neighboring cell
that is not a Wall. -/
def goodAt (m : Map) (c : Coordinates) (d : ℕ) : Prop :=
  ∃ c2 : Coordinates, c.step d m.width m.height = some (some c2) ∧
    c2.x < m.width ∧ c2.y < m.height ∧ m.cell_at c2 ≠ GridCell.Wall

/-- Every exit bit of every in-bounds cell points at an in-bounds neighboring
cell that is not a Wall (the no-dangling-exit invariant of the spec). -/
def good_map (m : Map) : Prop :=
  ∀ c : Coordinates, c.x < m.width → c.y < m.height →
    ∀ d ∈ [NORTH, SOUTH, EAST, WEST], d &&& m.exitsAt c ≠ 0 → goodAt m c d

end Map

/-! ## The player (`src/lib/player.rs`) -/

/-- `enum MoveAlgorithm` (`src/lib/npc.rs`). -/
inductive MoveAlgorithm where
  | ShortestPath : MoveAlgorithm
deriving DecidableEq, Repr

/-- `enum ItemAlgorithm` (`src/lib/npc.rs`). -/
inductive ItemAlgorithm where
  | HighestGain : ItemAlgorithm
deriving DecidableEq, Repr

/-- `enum PlayerType`. -/
inductive PlayerType where
  | LocalHuman : PlayerType
  | Computer : MoveAlgorithm → ItemAlgorithm → PlayerType
deriving DecidableEq, Repr

/-- `struct Player`.  The die holds the complex-amplitude weights of
`src/lib/dice.rs`. -/
structure Player where
  name : String
  position : Coordinates
  inventory : List ItemSpec
  die : WeightedDie
  player_number : ℕ
  ptype : PlayerType
  moves : List ℕ

namespace Player

/-- `Player::step`: `none` models the two panics (`"Somehow the player is in
a wall"` and `"Path allowed walking into a wall"`, plus the non-cardinal
direction panic inside `Coordinates::step`); otherwise the returned pair is
the updated player and the source's boolean. -/
def step (p : Player) (direction : ℕ) (m : Map) : Option (Player × Bool) :=
  let check : Option Bool :=
    match m.cell_at p.position with
    | GridCell.Wall => none
    | GridCell.Path exits _ => if direction &&& exits = 0 then some false else some true
    | GridCell.Goal _ => some true
  match check with
  | none => none
  | some false => some (p, false)
  | some true =>
    match p.position.step direction m.width m.height with
    | none => none
    | some none => some (p, false)
    | some (some c2) =>
      match m.cell_at c2 with
      | GridCell.Wall => none
      | _ => some ({ p with position := c2 }, true)

/-- `Player::last_move`: `*self.moves.last().unwrap_or(&0)`. -/
def last_move (p : Player) : ℕ := p.moves.getLast?.getD 0

/-- `Player::end_turn`: `self.moves.clear()`. -/
def end_turn (p : Player) : Player := { p with moves := [] }

end Player

/-! ## Bitmask facts used by the carving proofs -/

theorem land_lor_distrib (a b c : ℕ) :
    a &&& (b ||| c) = (a &&& b) ||| (a &&& c) := by
  apply Nat.eq_of_testBit_eq
  intro i
  simp [Nat.testBit_land, Nat.testBit_lor, Bool.and_or_distrib_left]

theorem lor_eq_zero {a b : ℕ} (h : a ||| b = 0) : a = 0 ∧ b = 0 := by
  constructor <;> apply Nat.eq_of_testBit_eq <;> intro i <;>
    have hb := congrArg (fun n => Nat.testBit n i) h <;>
    simp only [Nat.testBit_lor, Nat.zero_testBit, Bool.or_eq_false_iff] at hb <;> simp [hb]

theorem bit_lor_left {d e e2 : ℕ} (h : d &&& e ≠ 0) : d &&& (e ||| e2) ≠ 0 := by
  rw [land_lor_distrib]
  intro hz
  exact h (lor_eq_zero hz).1

theorem bit_lor_right {d e e2 : ℕ} (h : d &&& e2 ≠ 0) : d &&& (e ||| e2) ≠ 0 := by
  rw [land_lor_distrib]
  intro hz
  exact h (lor_eq_zero hz).2

theorem bit_of_lor {d e e2 : ℕ} (h : d &&& (e ||| e2) ≠ 0) :
    d &&& e ≠ 0 ∨ d &&& e2 ≠ 0 := by
  by_contra hc
  push_neg at hc
  rw [land_lor_distrib, hc.1, hc.2] at h
  exact h rfl

/-! ## Basic facts about the map operations -/

namespace Map

@[simp] theorem set_cell_width (m : Map) (c : Coordinates) (g : GridCell) :
    (m.set_cell c g).width = m.width := rfl
@[simp] theorem set_cell_height (m : Map) (c : Coordinates) (g : GridCell) :
    (m.set_cell c g).height = m.height := rfl
@[simp] theorem set_cell_goal (m : Map) (c : Coordinates) (g : GridCell) :
    (m.set_cell c g).goal = m.goal := rfl
@[simp] theorem set_cell_starts (m : Map) (c : Coordinates) (g : GridCell) :
    (m.set_cell c g).starting_points = m.starting_points := rfl

@[simp] theorem supplement_width (m : Map) (c : Coordinates) (d : ℕ) :
    (m.supplement_cell c d).width = m.width := by
  unfold supplement_cell
  cases m.cell_at c <;> rfl

@[simp] theorem supplement_height (m : Map) (c : Coordinates) (d : ℕ) :
    (m.supplement_cell c d).height = m.height := by
  unfold supplement_cell
  cases m.cell_at c <;> rfl

@[simp] theorem supplement_goal (m : Map) (c : Coordinates) (d : ℕ) :
    (m.supplement_cell c d).goal = m.goal := by
  unfold supplement_cell
  cases m.cell_at c <;> rfl

@[simp] theorem supplement_starts (m : Map) (c : Coordinates) (d : ℕ) :
    (m.supplement_cell c d).starting_points = m.starting_points := by
  unfold supplement_cell
  cases m.cell_at c <;> rfl

@[simp] theorem straight_width (lst : List ℕ) :
    ∀ (m : Map) (xr : Bool) (fx : ℕ), (m.straight_path lst xr fx).width = m.width := by
  induction lst with
  | nil => intro m xr fx; rfl
  | cons c rest ih => intro m xr fx; rw [straight_path, ih]; simp

@[simp] theorem straight_height (lst : List ℕ) :
    ∀ (m : Map) (xr : Bool) (fx : ℕ), (m.straight_path lst xr fx).height = m.height := by
  induction lst with
  | nil => intro m xr fx; rfl
  | cons c rest ih => intro m xr fx; rw [straight_path, ih]; simp

@[simp] theorem straight_goal (lst : List ℕ) :
    ∀ (m : Map) (xr : Bool) (fx : ℕ), (m.straight_path lst xr fx).goal = m.goal := by
  induction lst with
  | nil => intro m xr fx; rfl
  | cons c rest ih => intro m xr fx; rw [straight_path, ih]; simp

@[simp] theorem straight_starts (lst : List ℕ) :
    ∀ (m : Map) (xr : Bool) (fx : ℕ),
      (m.straight_path lst xr fx).starting_points = m.starting_points := by
  induction lst with
  | nil => intro m xr fx; rfl
  | cons c rest ih => intro m xr fx; rw [straight_path, ih]; simp

@[simp] theorem connect_width (m : Map) (s e : Coordinates) :
    (m.connect_cells s e).width = m.width := by
  unfold connect_cells
  dsimp only
  split_ifs <;> simp

@[simp] theorem connect_height (m : Map) (s e : Coordinates) :
    (m.connect_cells s e).height = m.height := by
  unfold connect_cells
  dsimp only
  split_ifs <;> simp

@[simp] theorem connect_goal (m : Map) (s e : Coordinates) :
    (m.connect_cells s e).goal = m.goal := by
  unfold connect_cells
  dsimp only
  split_ifs <;> simp

@[simp] theorem connect_starts (m : Map) (s e : Coordinates) :
    (m.connect_cells s e).starting_points = m.starting_points := by
  unfold connect_cells
  dsimp only
  split_ifs <;> simp

theorem cell_at_set_cell (m : Map) (c : Coordinates) (g : GridCell) (c2 : Coordinates) :
    (m.set_cell c g).cell_at c2 = if c2 = c then g else m.cell_at c2 := rfl

theorem exitsAt_supplement (m : Map) (c : Coordinates) (d : ℕ) (c2 : Coordinates) :
    (m.supplement_cell c d).exitsAt c2 =
      if c2 = c then m.exitsAt c2 ||| d else m.exitsAt c2 := by
  unfold supplement_cell exitsAt cell_at set_cell
  by_cases hc : c2 = c
  · subst hc
    cases h : m.grid c2 <;> simp [h, Nat.zero_or]
  · cases h : m.grid c <;> simp [h, hc]

theorem cell_at_supplement_other (m : Map) (c : Coordinates) (d : ℕ) (c2 : Coordinates)
    (h : c2 ≠ c) : (m.supplement_cell c d).cell_at c2 = m.cell_at c2 := by
  unfold supplement_cell
  cases m.cell_at c <;> simp [cell_at_set_cell, h]

theorem cell_at_supplement_self (m : Map) (c : Coordinates) (d : ℕ) :
    (m.supplement_cell c d).cell_at c ≠ GridCell.Wall := by
  unfold supplement_cell
  cases h : m.cell_at c <;> simp [cell_at_set_cell]

theorem cell_at_supplement_ne_wall (m : Map) (c : Coordinates) (d : ℕ) (c2 : Coordinates)
    (h : m.cell_at c2 ≠ GridCell.Wall) :
    (m.supplement_cell c d).cell_at c2 ≠ GridCell.Wall := by
  by_cases hc : c2 = c
  · subst hc
    exact cell_at_supplement_self m c2 d
  · rw [cell_at_supplement_other m c d c2 hc]
    exact h

end Map

namespace Map

/-- Monotone growth between two maps: dimensions fixed, exit bits only added,
non-Wall cells never reverting to Wall.  Every carving step and item placement
of the generator grows the map in this order. -/
structure MapLE (m m2 : Map) : Prop where
  width_eq : m2.width = m.width
  height_eq : m2.height = m.height
  exits_le : ∀ (c : Coordinates) (d : ℕ), d &&& m.exitsAt c ≠ 0 → d &&& m2.exitsAt c ≠ 0
  wall_le : ∀ c : Coordinates, m.cell_at c ≠ GridCell.Wall → m2.cell_at c ≠ GridCell.Wall

theorem MapLE.rfl (m : Map) : MapLE m m :=
  ⟨Eq.refl _, Eq.refl _, fun _ _ h => h, fun _ h => h⟩

theorem MapLE.trans {m1 m2 m3 : Map} (h1 : MapLE m1 m2) (h2 : MapLE m2 m3) :
    MapLE m1 m3 :=
  ⟨h2.width_eq.trans h1.width_eq, h2.height_eq.trans h1.height_eq,
    fun c d h => h2.exits_le c d (h1.exits_le c d h),
    fun c h => h2.wall_le c (h1.wall_le c h)⟩

theorem MapLE.supplement (m : Map) (c : Coordinates) (d : ℕ) :
    MapLE m (m.supplement_cell c d) := by
  refine ⟨by simp, by simp, ?_, ?_⟩
  · intro c2 d2 h
    rw [exitsAt_supplement]
    by_cases hc : c2 = c
    · rw [if_pos hc]
      exact bit_lor_left h
    · rw [if_neg hc]
      exact h
  · intro c2 h
    exact cell_at_supplement_ne_wall m c d c2 h

theorem MapLE.straight (lst : List ℕ) :
    ∀ (m : Map) (xr : Bool) (fx : ℕ), MapLE m (m.straight_path lst xr fx) := by
  induction lst with
  | nil => intro m xr fx; exact MapLE.rfl m
  | cons coord rest ih =>
    intro m xr fx
    rw [straight_path]
    exact (MapLE.supplement m _ _).trans (ih _ xr fx)

theorem MapLE.connect (m : Map) (s e : Coordinates) :
    MapLE m (m.connect_cells s e) := by
  unfold connect_cells
  dsimp only
  split_ifs <;>
    first
    | exact MapLE.rfl m
    | exact ((MapLE.supplement m _ _).trans (MapLE.straight _ _ _ _)).trans
        (((MapLE.supplement _ _ _).trans (MapLE.straight _ _ _ _)).trans
          (MapLE.supplement _ _ _))
    | exact ((MapLE.supplement m _ _).trans (MapLE.straight _ _ _ _)).trans
        ((MapLE.supplement _ _ _).trans (MapLE.supplement _ _ _))
    | exact (MapLE.supplement m _ _).trans
        (((MapLE.supplement _ _ _).trans (MapLE.straight _ _ _ _)).trans
          (MapLE.supplement _ _ _))
    | exact (MapLE.supplement m _ _).trans
        ((MapLE.supplement _ _ _).trans (MapLE.supplement _ _ _))

theorem MapLE.place_item {m m2 : Map} {c : Coordinates} {it : ItemSpec}
    (h : m.place_item c it = some m2) : MapLE m m2 := by
  unfold Map.place_item at h
  cases hc : m.cell_at c with
  | Wall => rw [hc] at h; cases h
  | Goal exits => rw [hc] at h; cases h
  | Path exits item =>
    rw [hc] at h
    obtain rfl : m.set_cell c (GridCell.Path exits (some it)) = m2 := Option.some.inj h
    refine ⟨by simp, by simp, ?_, ?_⟩
    · intro c2 d h2
      unfold exitsAt
      rw [cell_at_set_cell]
      by_cases hcc : c2 = c
      · subst hcc
        unfold exitsAt at h2
        rw [hc] at h2
        simp only [if_pos (Eq.refl c2)]
        exact h2
      · rw [if_neg hcc]
        exact h2
    · intro c2 h2
      rw [cell_at_set_cell]
      by_cases hcc : c2 = c
      · subst hcc
        simp
      · rw [if_neg hcc]
        exact h2

/-- A map update that changes only `goal` or `starting_points` keeps `MapLE`
in both directions; this is the version used when the generator pushes a
starting point. -/
theorem MapLE.push_start (m : Map) (l : List Coordinates) :
    MapLE m { m with starting_points := l } :=
  ⟨Eq.refl _, Eq.refl _, fun _ _ h => h, fun _ h => h⟩

end Map

namespace Map

theorem follow_mono {m m2 : Map} (h : MapLE m m2) :
    ∀ (dirs : List ℕ) (c g : Coordinates),
      follow m c dirs = some g → follow m2 c dirs = some g := by
  intro dirs
  induction dirs with
  | nil => intro c g hf; exact hf
  | cons d rest ih =>
    intro c g hf
    rw [follow] at hf
    rw [follow]
    split_ifs at hf with hbit
    rw [if_neg (h.exits_le c d hbit), h.width_eq, h.height_eq]
    cases hstep : c.step d m.width m.height with
    | none =>
      rw [hstep] at hf
      simp at hf
    | some o =>
      rw [hstep] at hf
      cases o with
      | none => simp at hf
      | some c2 => exact ih c2 g hf

theorem follow_append (m : Map) :
    ∀ (l1 l2 : List ℕ) (c : Coordinates),
      follow m c (l1 ++ l2) =
        match follow m c l1 with
        | some c2 => follow m c2 l2
        | none => none := by
  intro l1
  induction l1 with
  | nil => intro l2 c; rfl
  | cons d rest ih =>
    intro l2 c
    rw [List.cons_append, follow, follow]
    split_ifs with hbit
    · rfl
    · cases hstep : c.step d m.width m.height with
      | none => rfl
      | some o =>
        cases o with
        | none => rfl
        | some c2 => exact ih l2 c2

theorem follow_east (m : Map) (y : ℕ) :
    ∀ (n x0 : ℕ), x0 + n < m.width →
      (∀ k, k < n → EAST &&& m.exitsAt ⟨x0 + k, y⟩ ≠ 0) →
      follow m ⟨x0, y⟩ (List.replicate n EAST) = some ⟨x0 + n, y⟩ := by
  intro n
  induction n with
  | zero => intro x0 _ _; rfl
  | succ n ih =>
    intro x0 hw hbits
    rw [List.replicate_succ, follow]
    have h0 : EAST &&& m.exitsAt ⟨x0, y⟩ ≠ 0 := by
      have := hbits 0 (Nat.succ_pos n)
      simpa using this
    rw [if_neg h0]
    unfold Coordinates.step
    rw [if_neg (by unfold NORTH EAST; omega), if_neg (by unfold SOUTH EAST; omega),
      if_pos (Eq.refl EAST), if_neg (by omega : ¬ m.width - 1 ≤ x0)]
    have := ih (x0 + 1) (by omega) (fun k hk => by
      have := hbits (k + 1) (by omega)
      simpa [Nat.add_assoc, Nat.add_comm 1 k] using this)
    dsimp only
    rw [this]
    congr 2
    omega

theorem follow_west (m : Map) (y : ℕ) :
    ∀ (n x0 : ℕ), n ≤ x0 →
      (∀ k, k < n → WEST &&& m.exitsAt ⟨x0 - k, y⟩ ≠ 0) →
      follow m ⟨x0, y⟩ (List.replicate n WEST) = some ⟨x0 - n, y⟩ := by
  intro n
  induction n with
  | zero => intro x0 _ _; rfl
  | succ n ih =>
    intro x0 hx hbits
    rw [List.replicate_succ, follow]
    have h0 : WEST &&& m.exitsAt ⟨x0, y⟩ ≠ 0 := by
      have := hbits 0 (Nat.succ_pos n)
      simpa using this
    rw [if_neg h0]
    unfold Coordinates.step
    rw [if_neg (by unfold NORTH WEST; omega), if_neg (by unfold SOUTH WEST; omega),
      if_neg (by unfold EAST WEST; omega), if_pos (Eq.refl WEST),
      if_neg (by omega : ¬ x0 = 0)]
    have := ih (x0 - 1) (by omega) (fun k hk => by
      have := hbits (k + 1) (by omega)
      have heq : x0 - 1 - k = x0 - (k + 1) := by omega
      rw [heq]
      exact this)
    dsimp only
    rw [this]
    congr 2
    omega

theorem follow_north (m : Map) (x : ℕ) :
    ∀ (n y0 : ℕ), y0 + n < m.height →
      (∀ k, k < n → NORTH &&& m.exitsAt ⟨x, y0 + k⟩ ≠ 0) →
      follow m ⟨x, y0⟩ (List.replicate n NORTH) = some ⟨x, y0 + n⟩ := by
  intro n
  induction n with
  | zero => intro y0 _ _; rfl
  | succ n ih =>
    intro y0 hh hbits
    rw [List.replicate_succ, follow]
    have h0 : NORTH &&& m.exitsAt ⟨x, y0⟩ ≠ 0 := by
      have := hbits 0 (Nat.succ_pos n)
      simpa using this
    rw [if_neg h0]
    unfold Coordinates.step
    rw [if_pos (Eq.refl NORTH), if_neg (by omega : ¬ m.height - 1 ≤ y0)]
    have := ih (y0 + 1) (by omega) (fun k hk => by
      have := hbits (k + 1) (by omega)
      simpa [Nat.add_assoc, Nat.add_comm 1 k] using this)
    dsimp only
    rw [this]
    congr 2
    omega

theorem follow_south (m : Map) (x : ℕ) :
    ∀ (n y0 : ℕ), n ≤ y0 →
      (∀ k, k < n → SOUTH &&& m.exitsAt ⟨x, y0 - k⟩ ≠ 0) →
      follow m ⟨x, y0⟩ (List.replicate n SOUTH) = some ⟨x, y0 - n⟩ := by
  intro n
  induction n with
  | zero => intro y0 _ _; rfl
  | succ n ih =>
    intro y0 hy hbits
    rw [List.replicate_succ, follow]
    have h0 : SOUTH &&& m.exitsAt ⟨x, y0⟩ ≠ 0 := by
      have := hbits 0 (Nat.succ_pos n)
      simpa using this
    rw [if_neg h0]
    unfold Coordinates.step
    rw [if_neg (by unfold NORTH SOUTH; omega), if_pos (Eq.refl SOUTH),
      if_neg (by omega : ¬ y0 = 0)]
    have := ih (y0 - 1) (by omega) (fun k hk => by
      have := hbits (k + 1) (by omega)
      have heq : y0 - 1 - k = y0 - (k + 1) := by omega
      rw [heq]
      exact this)
    dsimp only
    rw [this]
    congr 2
    omega

end Map

namespace Map

theorem straight_bits (lst : List ℕ) :
    ∀ (m : Map) (xr : Bool) (fx coord : ℕ), coord ∈ lst → ∀ d : ℕ,
      d &&& (if xr then EAST ||| WEST else NORTH ||| SOUTH) ≠ 0 →
      d &&& (m.straight_path lst xr fx).exitsAt
        (if xr then ⟨coord, fx⟩ else ⟨fx, coord⟩) ≠ 0 := by
  induction lst with
  | nil => intro m xr fx coord hmem; cases hmem
  | cons c0 rest ih =>
    intro m xr fx coord hmem d hd
    rw [straight_path]
    rcases List.mem_cons.mp hmem with rfl | hmem2
    · apply (MapLE.straight rest _ xr fx).exits_le
      rw [exitsAt_supplement, if_pos rfl]
      exact bit_lor_right hd
    · exact ih _ xr fx coord hmem2 d hd

theorem straight_nonwall (lst : List ℕ) :
    ∀ (m : Map) (xr : Bool) (fx coord : ℕ), coord ∈ lst →
      (m.straight_path lst xr fx).cell_at
        (if xr then ⟨coord, fx⟩ else ⟨fx, coord⟩) ≠ GridCell.Wall := by
  induction lst with
  | nil => intro m xr fx coord hmem; cases hmem
  | cons c0 rest ih =>
    intro m xr fx coord hmem
    rw [straight_path]
    rcases List.mem_cons.mp hmem with rfl | hmem2
    · exact (MapLE.straight rest _ xr fx).wall_le _ (cell_at_supplement_self m _ _)
    · exact ih _ xr fx coord hmem2

theorem rustRange_mem {x a b : ℕ} : x ∈ rustRange a b ↔ a ≤ x ∧ x < b := by
  unfold rustRange
  rw [List.mem_range'_1]
  omega

end Map

namespace Map

/-- The exit bits established by one `connect_cells` call: an east- or
west-pointing corridor along the start's row, and a north- or south-pointing
corridor along the stop's column, joined at the elbow `(stop.x, start.y)`. -/
theorem connect_bits (m : Map) (s e : Coordinates) (hse : s ≠ e) :
    (s.x < e.x → ∀ x, s.x ≤ x → x < e.x →
      EAST &&& (m.connect_cells s e).exitsAt ⟨x, s.y⟩ ≠ 0) ∧
    (e.x < s.x → ∀ x, e.x < x → x ≤ s.x →
      WEST &&& (m.connect_cells s e).exitsAt ⟨x, s.y⟩ ≠ 0) ∧
    (s.y < e.y → ∀ y, s.y ≤ y → y < e.y →
      NORTH &&& (m.connect_cells s e).exitsAt ⟨e.x, y⟩ ≠ 0) ∧
    (e.y < s.y → ∀ y, e.y < y → y ≤ s.y →
      SOUTH &&& (m.connect_cells s e).exitsAt ⟨e.x, y⟩ ≠ 0) := by
  by_cases hx : s.x < e.x
  · have hxne : s.x ≠ e.x := by omega
    by_cases hy : s.y < e.y
    · -- east leg, north leg
      have hyne : s.y ≠ e.y := by omega
      have hM : m.connect_cells s e =
          ((((m.supplement_cell s EAST).straight_path (rustRange (s.x + 1) e.x) true s.y
            ).supplement_cell e SOUTH).straight_path (rustRange (s.y + 1) e.y) false e.x
          ).supplement_cell ⟨e.x, s.y⟩ (corner_v s e) := by
        unfold connect_cells
        rw [if_neg hse]
        dsimp only
        rw [if_pos hxne, if_pos hx, if_pos hyne, if_pos hy]
      have hcv : corner_v s e = WEST ||| NORTH := by
        unfold corner_v corner_h
        rw [if_pos hyne, if_pos hxne, if_pos hx, if_pos hy]
      have hleAM : MapLE (m.supplement_cell s EAST) (m.connect_cells s e) := by
        rw [hM]
        exact (MapLE.straight _ _ _ _).trans ((MapLE.supplement _ _ _).trans
          ((MapLE.straight _ _ _ _).trans (MapLE.supplement _ _ _)))
      have hleBM : MapLE ((m.supplement_cell s EAST).straight_path
          (rustRange (s.x + 1) e.x) true s.y) (m.connect_cells s e) := by
        rw [hM]
        exact (MapLE.supplement _ _ _).trans
          ((MapLE.straight _ _ _ _).trans (MapLE.supplement _ _ _))
      have hleDM : MapLE ((((m.supplement_cell s EAST).straight_path
          (rustRange (s.x + 1) e.x) true s.y).supplement_cell e SOUTH).straight_path
          (rustRange (s.y + 1) e.y) false e.x) (m.connect_cells s e) := by
        rw [hM]
        exact MapLE.supplement _ _ _
      refine ⟨fun _ x hx1 hx2 => ?_, fun hc => absurd hc (by omega),
        fun _ y hy1 hy2 => ?_, fun hc => absurd hc (by omega)⟩
      · by_cases hxx : x = s.x
        · apply hleAM.exits_le
          have hc : (⟨x, s.y⟩ : Coordinates) = s := by ext <;> simp [hxx]
          rw [hc, exitsAt_supplement, if_pos rfl]
          exact bit_lor_right (by decide)
        · apply hleBM.exits_le
          have hmem : x ∈ rustRange (s.x + 1) e.x := rustRange_mem.mpr (by omega)
          have := straight_bits (rustRange (s.x + 1) e.x) (m.supplement_cell s EAST)
            true s.y x hmem EAST (by decide)
          simpa using this
      · by_cases hyy : y = s.y
        · rw [hM, exitsAt_supplement,
            if_pos (show (⟨e.x, y⟩ : Coordinates) = ⟨e.x, s.y⟩ by rw [hyy])]
          apply bit_lor_right
          rw [hcv]
          decide
        · apply hleDM.exits_le
          have hmem : y ∈ rustRange (s.y + 1) e.y := rustRange_mem.mpr (by omega)
          have := straight_bits (rustRange (s.y + 1) e.y)
            (((m.supplement_cell s EAST).straight_path (rustRange (s.x + 1) e.x) true
              s.y).supplement_cell e SOUTH) false e.x y hmem NORTH (by decide)
          simpa using this
    · by_cases hy2 : e.y < s.y
      · -- east leg, south leg
        have hyne : s.y ≠ e.y := by omega
        have hM : m.connect_cells s e =
            ((((m.supplement_cell s EAST).straight_path (rustRange (s.x + 1) e.x) true s.y
              ).supplement_cell e NORTH).straight_path (rustRange (e.y + 1) s.y) false e.x
            ).supplement_cell ⟨e.x, s.y⟩ (corner_v s e) := by
          unfold connect_cells
          rw [if_neg hse]
          dsimp only
          rw [if_pos hxne, if_pos hx, if_pos hyne, if_neg hy]
        have hcv : corner_v s e = WEST ||| SOUTH := by
          unfold corner_v corner_h
          rw [if_pos hyne, if_pos hxne, if_pos hx, if_neg hy]
        have hleAM : MapLE (m.supplement_cell s EAST) (m.connect_cells s e) := by
          rw [hM]
          exact (MapLE.straight _ _ _ _).trans ((MapLE.supplement _ _ _).trans
            ((MapLE.straight _ _ _ _).trans (MapLE.supplement _ _ _)))
        have hleBM : MapLE ((m.supplement_cell s EAST).straight_path
            (rustRange (s.x + 1) e.x) true s.y) (m.connect_cells s e) := by
          rw [hM]
          exact (MapLE.supplement _ _ _).trans
            ((MapLE.straight _ _ _ _).trans (MapLE.supplement _ _ _))
        have hleDM : MapLE ((((m.supplement_cell s EAST).straight_path
            (rustRange (s.x + 1) e.x) true s.y).supplement_cell e NORTH).straight_path
            (rustRange (e.y + 1) s.y) false e.x) (m.connect_cells s e) := by
          rw [hM]
          exact MapLE.supplement _ _ _
        refine ⟨fun _ x hx1 hx2 => ?_, fun hc => absurd hc (by omega),
          fun hc => absurd hc (by omega), fun _ y hy1 hy2 => ?_⟩
        · by_cases hxx : x = s.x
          · apply hleAM.exits_le
            have hc : (⟨x, s.y⟩ : Coordinates) = s := by ext <;> simp [hxx]
            rw [hc, exitsAt_supplement, if_pos rfl]
            exact bit_lor_right (by decide)
          · apply hleBM.exits_le
            have hmem : x ∈ rustRange (s.x + 1) e.x := rustRange_mem.mpr (by omega)
            have := straight_bits (rustRange (s.x + 1) e.x) (m.supplement_cell s EAST)
              true s.y x hmem EAST (by decide)
            simpa using this
        · by_cases hyy : y = s.y
          · rw [hM, exitsAt_supplement,
              if_pos (show (⟨e.x, y⟩ : Coordinates) = ⟨e.x, s.y⟩ by rw [hyy])]
            apply bit_lor_right
            rw [hcv]
            decide
          · apply hleDM.exits_le
            have hmem : y ∈ rustRange (e.y + 1) s.y := rustRange_mem.mpr (by omega)
            have := straight_bits (rustRange (e.y + 1) s.y)
              (((m.supplement_cell s EAST).straight_path (rustRange (s.x + 1) e.x) true
                s.y).supplement_cell e NORTH) false e.x y hmem SOUTH (by decide)
            simpa using this
      · -- east leg only (same row)
        have hyeq : s.y = e.y := by omega
        have hM : m.connect_cells s e =
            (((m.supplement_cell s EAST).straight_path (rustRange (s.x + 1) e.x) true s.y
              ).supplement_cell e (corner_h s e)).supplement_cell ⟨e.x, s.y⟩
                (corner_v s e) := by
          unfold connect_cells
          rw [if_neg hse]
          dsimp only
          rw [if_pos hxne, if_pos hx, if_neg (show ¬ (s.y ≠ e.y) from fun h => h hyeq)]
        have hleAM : MapLE (m.supplement_cell s EAST) (m.connect_cells s e) := by
          rw [hM]
          exact (MapLE.straight _ _ _ _).trans ((MapLE.supplement _ _ _).trans
            (MapLE.supplement _ _ _))
        have hleBM : MapLE ((m.supplement_cell s EAST).straight_path
            (rustRange (s.x + 1) e.x) true s.y) (m.connect_cells s e) := by
          rw [hM]
          exact (MapLE.supplement _ _ _).trans (MapLE.supplement _ _ _)
        refine ⟨fun _ x hx1 hx2 => ?_, fun hc => absurd hc (by omega),
          fun hc => absurd hc (by omega), fun hc => absurd hc (by omega)⟩
        by_cases hxx : x = s.x
        · apply hleAM.exits_le
          have hc : (⟨x, s.y⟩ : Coordinates) = s := by ext <;> simp [hxx]
          rw [hc, exitsAt_supplement, if_pos rfl]
          exact bit_lor_right (by decide)
        · apply hleBM.exits_le
          have hmem : x ∈ rustRange (s.x + 1) e.x := rustRange_mem.mpr (by omega)
          have := straight_bits (rustRange (s.x + 1) e.x) (m.supplement_cell s EAST)
            true s.y x hmem EAST (by decide)
          simpa using this
  · by_cases hx2 : e.x < s.x
    · have hxne : s.x ≠ e.x := by omega
      by_cases hy : s.y < e.y
      · -- west leg, north leg
        have hyne : s.y ≠ e.y := by omega
        have hM : m.connect_cells s e =
            ((((m.supplement_cell s WEST).straight_path (rustRange (e.x + 1) s.x) true s.y
              ).supplement_cell e SOUTH).straight_path (rustRange (s.y + 1) e.y) false e.x
            ).supplement_cell ⟨e.x, s.y⟩ (corner_v s e) := by
          unfold connect_cells
          rw [if_neg hse]
          dsimp only
          rw [if_pos hxne, if_neg hx, if_pos hyne, if_pos hy]
        have hcv : corner_v s e = EAST ||| NORTH := by
          unfold corner_v corner_h
          rw [if_pos hyne, if_pos hxne, if_neg hx, if_pos hy]
        have hleAM : MapLE (m.supplement_cell s WEST) (m.connect_cells s e) := by
          rw [hM]
          exact (MapLE.straight _ _ _ _).trans ((MapLE.supplement _ _ _).trans
            ((MapLE.straight _ _ _ _).trans (MapLE.supplement _ _ _)))
        have hleBM : MapLE ((m.supplement_cell s WEST).straight_path
            (rustRange (e.x + 1) s.x) true s.y) (m.connect_cells s e) := by
          rw [hM]
          exact (MapLE.supplement _ _ _).trans
            ((MapLE.straight _ _ _ _).trans (MapLE.supplement _ _ _))
        have hleDM : MapLE ((((m.supplement_cell s WEST).straight_path
            (rustRange (e.x + 1) s.x) true s.y).supplement_cell e SOUTH).straight_path
            (rustRange (s.y + 1) e.y) false e.x) (m.connect_cells s e) := by
          rw [hM]
          exact MapLE.supplement _ _ _
        refine ⟨fun hc => absurd hc (by omega), fun _ x hx1 hx2b => ?_,
          fun _ y hy1 hy2 => ?_, fun hc => absurd hc (by omega)⟩
        · by_cases hxx : x = s.x
          · apply hleAM.exits_le
            have hc : (⟨x, s.y⟩ : Coordinates) = s := by ext <;> simp [hxx]
            rw [hc, exitsAt_supplement, if_pos rfl]
            exact bit_lor_right (by decide)
          · apply hleBM.exits_le
            have hmem : x ∈ rustRange (e.x + 1) s.x := rustRange_mem.mpr (by omega)
            have := straight_bits (rustRange (e.x + 1) s.x) (m.supplement_cell s WEST)
              true s.y x hmem WEST (by decide)
            simpa using this
        · by_cases hyy : y = s.y
          · rw [hM, exitsAt_supplement,
              if_pos (show (⟨e.x, y⟩ : Coordinates) = ⟨e.x, s.y⟩ by rw [hyy])]
            apply bit_lor_right
            rw [hcv]
            decide
          · apply hleDM.exits_le
            have hmem : y ∈ rustRange (s.y + 1) e.y := rustRange_mem.mpr (by omega)
            have := straight_bits (rustRange (s.y + 1) e.y)
              (((m.supplement_cell s WEST).straight_path (rustRange (e.x + 1) s.x) true
                s.y).supplement_cell e SOUTH) false e.x y hmem NORTH (by decide)
            simpa using this
      · by_cases hy2 : e.y < s.y
        · -- west leg, south leg
          have hyne : s.y ≠ e.y := by omega
          have hM : m.connect_cells s e =
              ((((m.supplement_cell s WEST).straight_path (rustRange (e.x + 1) s.x) true
                s.y).supplement_cell e NORTH).straight_path (rustRange (e.y + 1) s.y)
                false e.x).supplement_cell ⟨e.x, s.y⟩ (corner_v s e) := by
            unfold connect_cells
            rw [if_neg hse]
            dsimp only
            rw [if_pos hxne, if_neg hx, if_pos hyne, if_neg hy]
          have hcv : corner_v s e = EAST ||| SOUTH := by
            unfold corner_v corner_h
            rw [if_pos hyne, if_pos hxne, if_neg hx, if_neg hy]
          have hleAM : MapLE (m.supplement_cell s WEST) (m.connect_cells s e) := by
            rw [hM]
            exact (MapLE.straight _ _ _ _).trans ((MapLE.supplement _ _ _).trans
              ((MapLE.straight _ _ _ _).trans (MapLE.supplement _ _ _)))
          have hleBM : MapLE ((m.supplement_cell s WEST).straight_path
              (rustRange (e.x + 1) s.x) true s.y) (m.connect_cells s e) := by
            rw [hM]
            exact (MapLE.supplement _ _ _).trans
              ((MapLE.straight _ _ _ _).trans (MapLE.supplement _ _ _))
          have hleDM : MapLE ((((m.supplement_cell s WEST).straight_path
              (rustRange (e.x + 1) s.x) true s.y).supplement_cell e NORTH).straight_path
              (rustRange (e.y + 1) s.y) false e.x) (m.connect_cells s e) := by
            rw [hM]
            exact MapLE.supplement _ _ _
          refine ⟨fun hc => absurd hc (by omega), fun _ x hx1 hx2b => ?_,
            fun hc => absurd hc (by omega), fun _ y hy1 hy2b => ?_⟩
          · by_cases hxx : x = s.x
            · apply hleAM.exits_le
              have hc : (⟨x, s.y⟩ : Coordinates) = s := by ext <;> simp [hxx]
              rw [hc, exitsAt_supplement, if_pos rfl]
              exact bit_lor_right (by decide)
            · apply hleBM.exits_le
              have hmem : x ∈ rustRange (e.x + 1) s.x := rustRange_mem.mpr (by omega)
              have := straight_bits (rustRange (e.x + 1) s.x) (m.supplement_cell s WEST)
                true s.y x hmem WEST (by decide)
              simpa using this
          · by_cases hyy : y = s.y
            · rw [hM, exitsAt_supplement,
                if_pos (show (⟨e.x, y⟩ : Coordinates) = ⟨e.x, s.y⟩ by rw [hyy])]
              apply bit_lor_right
              rw [hcv]
              decide
            · apply hleDM.exits_le
              have hmem : y ∈ rustRange (e.y + 1) s.y := rustRange_mem.mpr (by omega)
              have := straight_bits (rustRange (e.y + 1) s.y)
                (((m.supplement_cell s WEST).straight_path (rustRange (e.x + 1) s.x) true
                  s.y).supplement_cell e NORTH) false e.x y hmem SOUTH (by decide)
              simpa using this
        · -- west leg only (same row)
          have hyeq : s.y = e.y := by omega
          have hM : m.connect_cells s e =
              (((m.supplement_cell s WEST).straight_path (rustRange (e.x + 1) s.x) true
                s.y).supplement_cell e (corner_h s e)).supplement_cell ⟨e.x, s.y⟩
                  (corner_v s e) := by
            unfold connect_cells
            rw [if_neg hse]
            dsimp only
            rw [if_pos hxne, if_neg hx, if_neg (show ¬ (s.y ≠ e.y) from fun h => h hyeq)]
          have hleAM : MapLE (m.supplement_cell s WEST) (m.connect_cells s e) := by
            rw [hM]
            exact (MapLE.straight _ _ _ _).trans ((MapLE.supplement _ _ _).trans
              (MapLE.supplement _ _ _))
          have hleBM : MapLE ((m.supplement_cell s WEST).straight_path
              (rustRange (e.x + 1) s.x) true s.y) (m.connect_cells s e) := by
            rw [hM]
            exact (MapLE.supplement _ _ _).trans (MapLE.supplement _ _ _)
          refine ⟨fun hc => absurd hc (by omega), fun _ x hx1 hx2b => ?_,
            fun hc => absurd hc (by omega), fun hc => absurd hc (by omega)⟩
          by_cases hxx : x = s.x
          · apply hleAM.exits_le
            have hc : (⟨x, s.y⟩ : Coordinates) = s := by ext <;> simp [hxx]
            rw [hc, exitsAt_supplement, if_pos rfl]
            exact bit_lor_right (by decide)
          · apply hleBM.exits_le
            have hmem : x ∈ rustRange (e.x + 1) s.x := rustRange_mem.mpr (by omega)
            have := straight_bits (rustRange (e.x + 1) s.x) (m.supplement_cell s WEST)
              true s.y x hmem WEST (by decide)
            simpa using this
    · -- same column
      have hxeq : s.x = e.x := by omega
      have hyne : s.y ≠ e.y := by
        intro h
        exact hse (by ext <;> omega)
      by_cases hy : s.y < e.y
      · -- north leg only
        have hM : m.connect_cells s e =
            (((m.supplement_cell s NORTH).supplement_cell e SOUTH).straight_path
              (rustRange (s.y + 1) e.y) false e.x).supplement_cell ⟨e.x, s.y⟩
                (corner_v s e) := by
          unfold connect_cells
          rw [if_neg hse]
          dsimp only
          rw [if_neg (show ¬ (s.x ≠ e.x) from fun h => h hxeq), if_pos hy, if_pos hyne,
            if_pos hy]
        have hcv : corner_v s e = 0 ||| NORTH := by
          unfold corner_v corner_h
          rw [if_pos hyne, if_neg (show ¬ (s.x ≠ e.x) from fun h => h hxeq), if_pos hy]
        have hleDM : MapLE (((m.supplement_cell s NORTH).supplement_cell e
            SOUTH).straight_path (rustRange (s.y + 1) e.y) false e.x)
            (m.connect_cells s e) := by
          rw [hM]
          exact MapLE.supplement _ _ _
        refine ⟨fun hc => absurd hc (by omega), fun hc => absurd hc (by omega),
          fun _ y hy1 hy2 => ?_, fun hc => absurd hc (by omega)⟩
        by_cases hyy : y = s.y
        · rw [hM, exitsAt_supplement,
            if_pos (show (⟨e.x, y⟩ : Coordinates) = ⟨e.x, s.y⟩ by rw [hyy])]
          apply bit_lor_right
          rw [hcv]
          decide
        · apply hleDM.exits_le
          have hmem : y ∈ rustRange (s.y + 1) e.y := rustRange_mem.mpr (by omega)
          have := straight_bits (rustRange (s.y + 1) e.y)
            ((m.supplement_cell s NORTH).supplement_cell e SOUTH) false e.x y hmem
            NORTH (by decide)
          simpa using this
      · -- south leg only
        have hy2 : e.y < s.y := by omega
        have hM : m.connect_cells s e =
            (((m.supplement_cell s SOUTH).supplement_cell e NORTH).straight_path
              (rustRange (e.y + 1) s.y) false e.x).supplement_cell ⟨e.x, s.y⟩
                (corner_v s e) := by
          unfold connect_cells
          rw [if_neg hse]
          dsimp only
          rw [if_neg (show ¬ (s.x ≠ e.x) from fun h => h hxeq), if_neg hy, if_pos hyne,
            if_neg hy]
        have hcv : corner_v s e = 0 ||| SOUTH := by
          unfold corner_v corner_h
          rw [if_pos hyne, if_neg (show ¬ (s.x ≠ e.x) from fun h => h hxeq), if_neg hy]
        have hleDM : MapLE (((m.supplement_cell s SOUTH).supplement_cell e
            NORTH).straight_path (rustRange (e.y + 1) s.y) false e.x)
            (m.connect_cells s e) := by
          rw [hM]
          exact MapLE.supplement _ _ _
        refine ⟨fun hc => absurd hc (by omega), fun hc => absurd hc (by omega),
          fun hc => absurd hc (by omega), fun _ y hy1 hy2b => ?_⟩
        by_cases hyy : y = s.y
        · rw [hM, exitsAt_supplement,
            if_pos (show (⟨e.x, y⟩ : Coordinates) = ⟨e.x, s.y⟩ by rw [hyy])]
          apply bit_lor_right
          rw [hcv]
          decide
        · apply hleDM.exits_le
          have hmem : y ∈ rustRange (e.y + 1) s.y := rustRange_mem.mpr (by omega)
          have := straight_bits (rustRange (e.y + 1) s.y)
            ((m.supplement_cell s SOUTH).supplement_cell e NORTH) false e.x y hmem
            SOUTH (by decide)
          simpa using this

end Map

namespace Map

/-- One `connect_cells` call leaves a bit-following walk from `start` to
`stop` in the carved map (trivial when the two coincide). -/
theorem connect_cells_walk (m : Map) (s e : Coordinates)
    (hex : e.x < m.width) (hey : e.y < m.height) :
    ∃ dirs : List ℕ, (m.connect_cells s e).follow s dirs = some e := by
  by_cases hse : s = e
  · refine ⟨[], ?_⟩
    rw [hse]
    rfl
  · obtain ⟨hE, hW, hN, hS⟩ := connect_bits m s e hse
    have hwidth : (m.connect_cells s e).width = m.width := connect_width m s e
    have hheight : (m.connect_cells s e).height = m.height := connect_height m s e
    refine ⟨(if s.x ≤ e.x then List.replicate (e.x - s.x) EAST
        else List.replicate (s.x - e.x) WEST) ++
      (if s.y ≤ e.y then List.replicate (e.y - s.y) NORTH
        else List.replicate (s.y - e.y) SOUTH), ?_⟩
    rw [follow_append]
    have hh : (m.connect_cells s e).follow s
        (if s.x ≤ e.x then List.replicate (e.x - s.x) EAST
          else List.replicate (s.x - e.x) WEST) = some ⟨e.x, s.y⟩ := by
      by_cases hxle : s.x ≤ e.x
      · rw [if_pos hxle]
        have h2 := follow_east (m.connect_cells s e) s.y (e.x - s.x) s.x
          (by rw [hwidth]; omega)
          (fun k hk => hE (by omega) (s.x + k) (by omega) (by omega))
        rw [show s.x + (e.x - s.x) = e.x by omega] at h2
        exact h2
      · rw [if_neg hxle]
        have h2 := follow_west (m.connect_cells s e) s.y (s.x - e.x) s.x (by omega)
          (fun k hk => hW (by omega) (s.x - k) (by omega) (by omega))
        rw [show s.x - (s.x - e.x) = e.x by omega] at h2
        exact h2
    rw [hh]
    by_cases hyle : s.y ≤ e.y
    · rw [if_pos hyle]
      have h2 := follow_north (m.connect_cells s e) e.x (e.y - s.y) s.y
        (by rw [hheight]; omega)
        (fun k hk => hN (by omega) (s.y + k) (by omega) (by omega))
      rw [show s.y + (e.y - s.y) = e.y by omega] at h2
      exact h2
    · rw [if_neg hyle]
      have h2 := follow_south (m.connect_cells s e) e.x (s.y - e.y) s.y (by omega)
        (fun k hk => hS (by omega) (s.y - k) (by omega) (by omega))
      rw [show s.y - (s.y - e.y) = e.y by omega] at h2
      exact h2

end Map

namespace Map

theorem get_random_cell_inbounds (m : Map) (rng : List ℕ)
    (hw : 0 < m.width) (hh : 0 < m.height) :
    (m.get_random_cell rng).1.x < m.width ∧ (m.get_random_cell rng).1.y < m.height := by
  unfold get_random_cell nextNat
  exact ⟨Nat.mod_lt _ hw, Nat.mod_lt _ hh⟩

theorem get_random_cell_with_distance_inbounds (m : Map) (t : Coordinates)
    (dist : ℕ) (rng : List ℕ) (htx : t.x < m.width) (hty : t.y < m.height) :
    ∀ (c : Coordinates) (r2 : List ℕ),
      m.get_random_cell_with_distance t dist rng = some (c, r2) →
      c.x < m.width ∧ c.y < m.height := by
  intro c r2 h
  unfold get_random_cell_with_distance nextNat at h
  dsimp only at h
  simp only [List.headD_eq_head?] at h
  set xl := (if t.x < dist then 0 else t.x - dist) with hxl
  have hxl_le : xl ≤ t.x := by rw [hxl]; split_ifs <;> omega
  have hxl_min : xl ≤ min (t.x + dist) (m.width - 1) := by
    have ht : t.x ≤ min (t.x + dist) (m.width - 1) :=
      Nat.le_min.mpr ⟨Nat.le_add_right _ _, by omega⟩
    omega
  have hmod := Nat.mod_lt (rng.head?.getD 0)
    (show 0 < min (t.x + dist) (m.width - 1) + 1 - xl by omega)
  have hXlt : xl + rng.head?.getD 0 % (min (t.x + dist) (m.width - 1) + 1 - xl)
      < m.width := by
    have hmle : min (t.x + dist) (m.width - 1) ≤ m.width - 1 := Nat.min_le_right _ _
    omega
  split_ifs at h <;>
    first
      | (simp only [Option.some.injEq, Prod.mk.injEq] at h
         obtain ⟨hc, -⟩ := h
         rw [← hc]
         refine ⟨?_, ?_⟩ <;> dsimp only <;> omega)
      | simp at h

end Map

namespace Map

theorem empty_cell_loop_spec (m : Map) (hw : 0 < m.width) (hh : 0 < m.height) :
    ∀ (fuel : ℕ) (cell : Coordinates) (rng : List ℕ) (c : Coordinates) (r2 : List ℕ),
      cell.x < m.width → cell.y < m.height →
      m.empty_cell_loop fuel cell rng = some (c, r2) →
      c.x < m.width ∧ c.y < m.height := by
  intro fuel
  induction fuel with
  | zero => intro cell rng c r2 _ _ h; cases h
  | succ fuel ih =>
    intro cell rng c r2 hx hy h
    rw [empty_cell_loop] at h
    cases hcell : m.cell_at cell with
    | Goal e =>
      rw [hcell] at h
      exact ih cell rng c r2 hx hy h
    | Wall =>
      rw [hcell] at h
      split_ifs at h with hmem
      · exact ih _ _ c r2 (get_random_cell_inbounds m rng hw hh).1
          (get_random_cell_inbounds m rng hw hh).2 h
      · simp only [Option.some.injEq, Prod.mk.injEq] at h
        rw [← h.1]
        exact ⟨hx, hy⟩
    | Path e it =>
      rw [hcell] at h
      split_ifs at h with hmem
      · exact ih _ _ c r2 (get_random_cell_inbounds m rng hw hh).1
          (get_random_cell_inbounds m rng hw hh).2 h
      · simp only [Option.some.injEq, Prod.mk.injEq] at h
        rw [← h.1]
        exact ⟨hx, hy⟩

theorem get_random_empty_cell_inbounds (m : Map) (hw : 0 < m.width) (hh : 0 < m.height)
    (rng : List ℕ) (c : Coordinates) (r2 : List ℕ)
    (h : m.get_random_empty_cell rng = some (c, r2)) :
    c.x < m.width ∧ c.y < m.height := by
  unfold get_random_empty_cell at h
  dsimp only at h
  refine empty_cell_loop_spec m hw hh _ _ _ c r2 ?_ ?_ h
  · exact Nat.mod_lt _ hw
  · exact Nat.mod_lt _ hh

theorem place_item_fields {m m2 : Map} {c : Coordinates} {it : ItemSpec}
    (h : m.place_item c it = some m2) :
    m2.goal = m.goal ∧ m2.starting_points = m.starting_points := by
  unfold Map.place_item at h
  cases hc : m.cell_at c with
  | Wall => rw [hc] at h; cases h
  | Goal e => rw [hc] at h; cases h
  | Path e itm =>
    rw [hc] at h
    rw [← Option.some.inj h]
    exact ⟨rfl, rfl⟩

theorem players_loop_spec (travel : ℕ) :
    ∀ (n : ℕ) (m : Map) (rng : List ℕ) (m2 : Map) (r2 : List ℕ),
      players_loop travel n m rng = some (m2, r2) →
      0 < m.width → 0 < m.height →
      m.goal.x < m.width → m.goal.y < m.height →
      map_connected m →
      MapLE m m2 ∧ m2.goal = m.goal ∧ map_connected m2 := by
  intro n
  induction n with
  | zero =>
    intro m rng m2 r2 h _ _ _ _ hconn
    rw [players_loop] at h
    simp only [Option.some.injEq, Prod.mk.injEq] at h
    rw [← h.1]
    exact ⟨MapLE.rfl m, rfl, hconn⟩
  | succ n ih =>
    intro m rng m2 r2 h hw hh hgx hgy hconn
    rw [players_loop] at h
    cases hs : m.get_random_cell_with_distance m.goal travel rng with
    | none => rw [hs] at h; cases h
    | some pr =>
      obtain ⟨start, r1⟩ := pr
      rw [hs] at h
      dsimp only at h
      have hle1 : MapLE m { m.connect_cells start m.goal with
          starting_points := (m.connect_cells start m.goal).starting_points ++ [start] } :=
        (MapLE.connect m start m.goal).trans (MapLE.push_start _ _)
      have hgoal1 : ({ m.connect_cells start m.goal with
          starting_points := (m.connect_cells start m.goal).starting_points ++ [start] }
            : Map).goal = m.goal := by
        simp
      have hconn1 : map_connected { m.connect_cells start m.goal with
          starting_points := (m.connect_cells start m.goal).starting_points ++ [start] } := by
        intro s hsmem
        simp only [connect_starts] at hsmem
        rw [hgoal1]
        rcases List.mem_append.mp hsmem with hold | hnew
        · obtain ⟨dirs, hdirs⟩ := hconn s hold
          exact ⟨dirs, follow_mono hle1 dirs s m.goal hdirs⟩
        · obtain rfl : s = start := by simpa using hnew
          obtain ⟨dirs, hdirs⟩ := connect_cells_walk m s m.goal hgx hgy
          refine ⟨dirs, follow_mono (MapLE.push_start _ _) dirs s m.goal hdirs⟩
      obtain ⟨hle2, hgoal2, hconn2⟩ := ih _ r1 m2 r2 h
        (by rw [hle1.width_eq]; exact hw) (by rw [hle1.height_eq]; exact hh)
        (by rw [hgoal1, hle1.width_eq]; exact hgx)
        (by rw [hgoal1, hle1.height_eq]; exact hgy) hconn1
      exact ⟨hle1.trans hle2, hgoal2.trans hgoal1, hconn2⟩

theorem items_loop_spec :
    ∀ (n : ℕ) (m : Map) (rng : List ℕ) (m2 : Map) (r2 : List ℕ),
      items_loop n m rng = some (m2, r2) →
      0 < m.width → 0 < m.height →
      map_connected m →
      MapLE m m2 ∧ m2.goal = m.goal ∧ map_connected m2 := by
  intro n
  induction n with
  | zero =>
    intro m rng m2 r2 h _ _ hconn
    rw [items_loop] at h
    simp only [Option.some.injEq, Prod.mk.injEq] at h
    rw [← h.1]
    exact ⟨MapLE.rfl m, rfl, hconn⟩
  | succ n ih =>
    intro m rng m2 r2 h hw hh hconn
    rw [items_loop] at h
    cases h1 : m.get_random_empty_cell rng with
    | none => rw [h1] at h; cases h
    | some pr1 =>
      obtain ⟨square1, r1⟩ := pr1
      rw [h1] at h
      dsimp only at h
      cases h2 : random_item r1 with
      | none => rw [h2] at h; cases h
      | some pr2 =>
        obtain ⟨item1, r2a⟩ := pr2
        rw [h2] at h
        dsimp only at h
        cases h3 : m.get_random_empty_cell r2a with
        | none => rw [h3] at h; cases h
        | some pr3 =>
          obtain ⟨square2, r3⟩ := pr3
          rw [h3] at h
          dsimp only at h
          split_ifs at h with heq
          · exact ih m r3 m2 r2 h hw hh hconn
          · cases h4 : random_item r3 with
            | none => rw [h4] at h; cases h
            | some pr4 =>
              obtain ⟨item2, r4⟩ := pr4
              rw [h4] at h
              dsimp only at h
              cases h5 : (m.connect_cells square1 square2).place_item square1 item1 with
              | none => rw [h5] at h; cases h
              | some m3 =>
                rw [h5] at h
                dsimp only at h
                cases h6 : m3.place_item square2 item2 with
                | none => rw [h6] at h; cases h
                | some m4 =>
                  rw [h6] at h
                  dsimp only at h
                  have hle1 : MapLE m m4 :=
                    ((MapLE.connect m square1 square2).trans (MapLE.place_item h5)).trans
                      (MapLE.place_item h6)
                  have hgoal1 : m4.goal = m.goal := by
                    rw [(place_item_fields h6).1, (place_item_fields h5).1, connect_goal]
                  have hstarts1 : m4.starting_points = m.starting_points := by
                    rw [(place_item_fields h6).2, (place_item_fields h5).2, connect_starts]
                  have hconn1 : map_connected m4 := by
                    intro s hsmem
                    rw [hstarts1] at hsmem
                    obtain ⟨dirs, hdirs⟩ := hconn s hsmem
                    rw [hgoal1]
                    exact ⟨dirs, follow_mono hle1 dirs s m.goal hdirs⟩
                  obtain ⟨hle2, hgoal2, hconn2⟩ := ih m4 r4 m2 r2 h
                    (by rw [hle1.width_eq]; exact hw) (by rw [hle1.height_eq]; exact hh)
                    hconn1
                  exact ⟨hle1.trans hle2, hgoal2.trans hgoal1, hconn2⟩

end Map

/-- C1: for every map actually returned by `Map::generate_random_map` (any
positive width and height, any player count, any item density in `[0, 0.8]`,
any travel distance within grid bounds, and any outcome of the random
sampling), every coordinate in the starting-point list is connected to the
Goal coordinates by a walk over matching exit bits — and this still holds
after the secondary item-corridor carving of step 4, since the final map is
the one the theorem speaks about. -/
theorem generate_random_map_connected (w h players travel : ℕ) (density : ℚ)
    (rng : List ℕ) (m : Map) (hw : 0 < w) (hh : 0 < h)
    (hd0 : 0 ≤ density) (hd1 : density ≤ 4/5) (ht1 : 1 ≤ travel)
    (ht2 : travel ≤ min w h * 3 / 4)
    (hgen : Map.generate_random_map w h players density travel rng = some m) :
    Map.map_connected m := by
  unfold Map.generate_random_map at hgen
  dsimp only at hgen
  set m0 : Map := ⟨w, h, fun _ => GridCell.Wall, ⟨0, 0⟩, []⟩ with hm0
  set gc := (m0.get_random_cell rng).1 with hgc
  set r1 := (m0.get_random_cell rng).2 with hr1
  set M2 : Map := (Map.mk w h (fun _ => GridCell.Wall) gc []).set_cell gc
    (GridCell.Goal 0) with hM2
  cases hp : Map.players_loop travel players M2 r1 with
  | none => rw [hp] at hgen; cases hgen
  | some pr =>
    obtain ⟨m3, r2⟩ := pr
    rw [hp] at hgen
    dsimp only at hgen
    cases hi : Map.items_loop (Map.ratRound (w * h * density) / 2) m3 r2 with
    | none => rw [hi] at hgen; cases hgen
    | some pr2 =>
      obtain ⟨m4, r4⟩ := pr2
      rw [hi] at hgen
      obtain rfl : m4 = m := Option.some.inj hgen
      have hgcx : gc.x < w := (Map.get_random_cell_inbounds m0 rng hw hh).1
      have hgcy : gc.y < h := (Map.get_random_cell_inbounds m0 rng hw hh).2
      have hconn2 : Map.map_connected M2 := by
        intro s hs
        exact absurd hs (List.not_mem_nil s)
      obtain ⟨hle3, hgoal3, hconn3⟩ :=
        Map.players_loop_spec travel players M2 r1 m3 r2 hp hw hh hgcx hgcy hconn2
      obtain ⟨hle4, hgoal4, hconn4⟩ :=
        Map.items_loop_spec (Map.ratRound (w * h * density) / 2) m3 r2 m4 r4 hi
          (by rw [hle3.width_eq]; exact hw) (by rw [hle3.height_eq]; exact hh) hconn3
      exact hconn4

/-- A concrete generated map: 3×3 grid, one player, no items, travel
distance 1, sample list `[0, 0, 1, 0]` (goal at `(0,0)`, start at `(1,0)`). -/
def mapExampleC1 : Map :=
  (Map.generate_random_map 3 3 1 0 1 [0, 0, 1, 0]).getD
    (Map.mk 1 1 (fun _ => GridCell.Wall) ⟨0, 0⟩ [])

/-- Witness for C1 on the concrete 3×3 generation. -/
theorem generate_random_map_connected_witness : Map.map_connected mapExampleC1 :=
  generate_random_map_connected 3 3 1 1 0 [0, 0, 1, 0] mapExampleC1
    (by decide) (by decide) (by with_unfolding_all decide)
    (by with_unfolding_all decide) (by decide) (by decide)
    (by with_unfolding_all rfl)

/-- C2 (code bug): `get_random_cell_with_distance` evaluated at the failing
input — an 8×8 grid, target `(0, 4)`, distance `5` (within the documented
bound `min(width,height)*3/4 = 6`), and the sampling outcome `x = 0` — takes
the branch `y0 + dy >= height` with `dy = 5 > y0 = 4` and computes the
`usize` subtraction `y0 - dy`, which aborts on underflow instead of
returning an in-bounds coordinate at Manhattan distance exactly 5. -/
theorem get_random_cell_with_distance_underflow :
    (Map.mk 8 8 (fun _ => GridCell.Wall) ⟨0, 0⟩ []).get_random_cell_with_distance
      ⟨0, 4⟩ 5 [0] = none := by
  with_unfolding_all rfl

/-- C9 (code bug): a map whose Goal sits at `(0, 0)` of a 2×1 grid.  Once the
candidate cell of `get_random_empty_cell` is the Goal, the `loop`'s
`GridCell::Goal` match arm does nothing — no resampling — so the loop never
terminates, for every amount of fuel and every continuation of the random
sample stream; with first sample `(0, 0)` the whole call diverges. -/
theorem get_random_empty_cell_diverges_on_goal :
    (∀ (fuel : ℕ) (rng : List ℕ),
      (Map.mk 2 1 (fun c => if c = ⟨0, 0⟩ then GridCell.Goal 0 else GridCell.Path WEST none)
        ⟨0, 0⟩ []).empty_cell_loop fuel ⟨0, 0⟩ rng = none) ∧
    ∀ rest : List ℕ,
      (Map.mk 2 1 (fun c => if c = ⟨0, 0⟩ then GridCell.Goal 0 else GridCell.Path WEST none)
        ⟨0, 0⟩ []).get_random_empty_cell (0 :: 0 :: rest) = none := by
  have hpart1 : ∀ (fuel : ℕ) (rng : List ℕ),
      (Map.mk 2 1 (fun c => if c = ⟨0, 0⟩ then GridCell.Goal 0 else GridCell.Path WEST none)
        ⟨0, 0⟩ []).empty_cell_loop fuel ⟨0, 0⟩ rng = none := by
    intro fuel
    induction fuel with
    | zero => intro rng; rfl
    | succ fuel ih =>
      intro rng
      rw [Map.empty_cell_loop]
      exact ih rng
  refine ⟨hpart1, fun rest => ?_⟩
  have hcell : (Map.mk 2 1
      (fun c => if c = ⟨0, 0⟩ then GridCell.Goal 0 else GridCell.Path WEST none)
      ⟨0, 0⟩ []).get_random_cell (0 :: 0 :: rest) = (⟨0, 0⟩, rest) := rfl
  unfold Map.get_random_empty_cell
  dsimp only
  rw [hcell]
  exact hpart1 _ _

/-- C7 (amended): for a single-cardinal direction and a player standing on a
non-Wall cell, `Player::step` returns `false` with the player fully unchanged
when the current cell is a Path whose exit bitmask lacks the direction bit,
or when the step would leave the grid boundary; it returns `true` updating
only the position when the move is allowed.  The exit-bit check applies only
to Path cells: when the player stands on the Goal cell the check is skipped
(see the counterexample for the claim as originally stated). -/
theorem player_step_policy (m : Map) (p : Player) (d : ℕ)
    (hd : d ∈ [NORTH, SOUTH, EAST, WEST]) (hnw : m.cell_at p.position ≠ GridCell.Wall) :
    (∀ exits it, m.cell_at p.position = GridCell.Path exits it → d &&& exits = 0 →
      p.step d m = some (p, false)) ∧
    ((d &&& m.exitsAt p.position ≠ 0 ∨ (∃ e, m.cell_at p.position = GridCell.Goal e)) →
      (p.position.step d m.width m.height = some none →
        p.step d m = some (p, false)) ∧
      (∀ c2, p.position.step d m.width m.height = some (some c2) →
        m.cell_at c2 ≠ GridCell.Wall →
        p.step d m = some ({ p with position := c2 }, true))) := by
  constructor
  · intro exits it hcell hbit
    unfold Player.step
    rw [hcell]
    dsimp only
    rw [if_pos hbit]
  · intro hgo
    have hcheck : (match m.cell_at p.position with
        | GridCell.Wall => none
        | GridCell.Path exits _ => if d &&& exits = 0 then some false else some true
        | GridCell.Goal _ => some true) = some true := by
      cases hcell : m.cell_at p.position with
      | Wall => exact absurd hcell hnw
      | Goal e => rfl
      | Path exits it =>
        rcases hgo with hbit | ⟨e, hgoal⟩
        · unfold Map.exitsAt at hbit
          rw [hcell] at hbit
          dsimp only
          rw [if_neg hbit]
        · rw [hcell] at hgoal
          cases hgoal
    constructor
    · intro hstep
      unfold Player.step
      rw [hcheck]
      dsimp only
      rw [hstep]
    · intro c2 hstep hc2
      unfold Player.step
      rw [hcheck]
      dsimp only
      rw [hstep]
      cases hcell2 : m.cell_at c2 with
      | Wall => exact absurd hcell2 hc2
      | Goal e =>
        dsimp only
        rw [hcell2]
      | Path exits it =>
        dsimp only
        rw [hcell2]

/-- The 2×1 map used for the C7 instances: Goal at `(0,0)` with empty exit
mask, a Path at `(1,0)` whose only exit points west. -/
def mapExampleC7 : Map :=
  Map.mk 2 1
    (fun c => if c = ⟨0, 0⟩ then GridCell.Goal 0 else GridCell.Path WEST none) ⟨0, 0⟩ []

/-- A player standing on the Path cell of `mapExampleC7`. -/
def playerOnPathC7 : Player :=
  Player.mk "p" ⟨1, 0⟩ [] ⟨fun _ => ⟨1, 0⟩⟩ 1 PlayerType.LocalHuman []

/-- A player standing on the Goal cell of `mapExampleC7`. -/
def playerOnGoalC7 : Player :=
  Player.mk "g" ⟨0, 0⟩ [] ⟨fun _ => ⟨1, 0⟩⟩ 0 PlayerType.LocalHuman []

/-- Witness for C7 (amended): on the Path cell, stepping east (bit missing)
fails with the player unchanged, and stepping west (bit present, in bounds,
destination non-Wall) succeeds and moves the player. -/
theorem player_step_policy_witness :
    playerOnPathC7.step EAST mapExampleC7 = some (playerOnPathC7, false) ∧
    playerOnPathC7.step WEST mapExampleC7 =
      some ({ playerOnPathC7 with position := ⟨0, 0⟩ }, true) :=
  ⟨(player_step_policy mapExampleC7 playerOnPathC7 EAST (by decide) (by decide)).1
      WEST none rfl (by decide),
    ((player_step_policy mapExampleC7 playerOnPathC7 WEST (by decide) (by decide)).2
      (Or.inl (by decide))).2 ⟨0, 0⟩ rfl (by decide)⟩

/-- Counterexample to C7 as stated: standing on the Goal cell of
`mapExampleC7`, the east bit is **not** contained in the cell's exit bitmask
(which is `0`), yet `step(EAST)` returns `true` and moves the player — the
source's `GridCell::Goal(_) => {}` arm skips the exit-bitmask check
entirely, so "returns false whenever the requested direction bit is not
contained in the exit bitmask of the cell the player currently occupies" is
false. -/
theorem player_step_goal_skips_exit_check :
    EAST &&& mapExampleC7.exitsAt ⟨0, 0⟩ = 0 ∧
    (playerOnGoalC7.step EAST mapExampleC7).map (fun r => (r.1.position, r.2)) =
      some (⟨1, 0⟩, true) :=
  ⟨by decide, by with_unfolding_all rfl⟩

/-- C10: `Player::end_turn` clears only the accumulated move history — after
it `last_move()` is the zero direction — and leaves every other field (name,
position, inventory, die, player number, player type) unchanged. -/
theorem end_turn_clears_only_moves (p : Player) :
    p.end_turn.name = p.name ∧ p.end_turn.position = p.position ∧
    p.end_turn.inventory = p.inventory ∧ p.end_turn.die = p.die ∧
    p.end_turn.player_number = p.player_number ∧ p.end_turn.ptype = p.ptype ∧
    p.end_turn.moves = [] ∧ p.end_turn.last_move = 0 :=
  ⟨rfl, rfl, rfl, rfl, rfl, rfl, rfl, rfl⟩

namespace Map

theorem goodAt_mono {m m2 : Map} (h : MapLE m m2) {c : Coordinates} {d : ℕ}
    (hg : goodAt m c d) : goodAt m2 c d := by
  obtain ⟨c2, hstep, hx, hy, hnw⟩ := hg
  exact ⟨c2, by rw [h.width_eq, h.height_eq]; exact hstep,
    by rw [h.width_eq]; exact hx, by rw [h.height_eq]; exact hy, h.wall_le c2 hnw⟩

theorem goodAt_east (m : Map) (c : Coordinates) (h1 : c.x + 1 < m.width)
    (h2 : c.y < m.height) (hnw : m.cell_at ⟨c.x + 1, c.y⟩ ≠ GridCell.Wall) :
    goodAt m c EAST := by
  refine ⟨⟨c.x + 1, c.y⟩, ?_, h1, h2, hnw⟩
  unfold Coordinates.step
  rw [if_neg (by decide : ¬ (EAST = NORTH)), if_neg (by decide : ¬ (EAST = SOUTH)),
    if_pos (Eq.refl EAST), if_neg (by omega : ¬ m.width - 1 ≤ c.x)]

theorem goodAt_west (m : Map) (c : Coordinates) (h0 : 0 < c.x) (h1 : c.x ≤ m.width)
    (h2 : c.y < m.height) (hnw : m.cell_at ⟨c.x - 1, c.y⟩ ≠ GridCell.Wall) :
    goodAt m c WEST := by
  refine ⟨⟨c.x - 1, c.y⟩, ?_, by dsimp only; omega, h2, hnw⟩
  unfold Coordinates.step
  rw [if_neg (by decide : ¬ (WEST = NORTH)), if_neg (by decide : ¬ (WEST = SOUTH)),
    if_neg (by decide : ¬ (WEST = EAST)), if_pos (Eq.refl WEST),
    if_neg (by omega : ¬ c.x = 0)]

theorem goodAt_north (m : Map) (c : Coordinates) (h1 : c.x < m.width)
    (h2 : c.y + 1 < m.height) (hnw : m.cell_at ⟨c.x, c.y + 1⟩ ≠ GridCell.Wall) :
    goodAt m c NORTH := by
  refine ⟨⟨c.x, c.y + 1⟩, ?_, h1, h2, hnw⟩
  unfold Coordinates.step
  rw [if_pos (Eq.refl NORTH), if_neg (by omega : ¬ m.height - 1 ≤ c.y)]

theorem goodAt_south (m : Map) (c : Coordinates) (h0 : 0 < c.y) (h1 : c.x < m.width)
    (h2 : c.y ≤ m.height) (hnw : m.cell_at ⟨c.x, c.y - 1⟩ ≠ GridCell.Wall) :
    goodAt m c SOUTH := by
  refine ⟨⟨c.x, c.y - 1⟩, ?_, h1, by dsimp only; omega, hnw⟩
  unfold Coordinates.step
  rw [if_neg (by decide : ¬ (SOUTH = NORTH)), if_pos (Eq.refl SOUTH),
    if_neg (by omega : ¬ c.y = 0)]

theorem cardinal_eq_of_bit {d k : ℕ} (hd : d ∈ [NORTH, SOUTH, EAST, WEST])
    (hk : k ∈ [NORTH, SOUTH, EAST, WEST]) (h : d &&& k ≠ 0) : d = k := by
  simp only [List.mem_cons, List.not_mem_nil, or_false] at hd hk
  rcases hd with rfl | rfl | rfl | rfl <;> rcases hk with rfl | rfl | rfl | rfl <;>
    first
      | rfl
      | exact absurd (by decide) h

theorem supplement_bits_sub (m : Map) (c2 : Coordinates) (dir : ℕ) :
    ∀ (c : Coordinates) (d : ℕ), d &&& (m.supplement_cell c2 dir).exitsAt c ≠ 0 →
      d &&& m.exitsAt c ≠ 0 ∨ (c = c2 ∧ d &&& dir ≠ 0) := by
  intro c d h
  rw [exitsAt_supplement] at h
  by_cases hc : c = c2
  · rw [if_pos hc] at h
    rcases bit_of_lor h with h1 | h2
    · exact Or.inl h1
    · exact Or.inr ⟨hc, h2⟩
  · rw [if_neg hc] at h
    exact Or.inl h

theorem straight_bits_sub (lst : List ℕ) :
    ∀ (m : Map) (xr : Bool) (fx : ℕ) (c : Coordinates) (d : ℕ),
      d &&& (m.straight_path lst xr fx).exitsAt c ≠ 0 →
      d &&& m.exitsAt c ≠ 0 ∨
        ∃ coord ∈ lst, c = (if xr then Coordinates.mk coord fx else Coordinates.mk fx coord) ∧
          d &&& (if xr then EAST ||| WEST else NORTH ||| SOUTH) ≠ 0 := by
  induction lst with
  | nil => intro m xr fx c d h; exact Or.inl h
  | cons c0 rest ih =>
    intro m xr fx c d h
    rw [straight_path] at h
    rcases ih _ xr fx c d h with h1 | ⟨coord, hmem, hceq, hdbit⟩
    · rcases supplement_bits_sub _ _ _ c d h1 with h2 | ⟨hceq, hdbit⟩
      · exact Or.inl h2
      · exact Or.inr ⟨c0, List.mem_cons_self c0 rest, hceq, hdbit⟩
    · exact Or.inr ⟨coord, List.mem_cons_of_mem c0 hmem, hceq, hdbit⟩

end Map

namespace Map

/-- After `connect_cells`, every cell of the horizontal segment (start's row,
between the two x-coordinates) and of the vertical segment (stop's column,
between the two y-coordinates) is a non-Wall cell. -/
theorem connect_nonwall (m : Map) (s e : Coordinates) (hse : s ≠ e) :
    (∀ x, min s.x e.x ≤ x → x ≤ max s.x e.x →
      (m.connect_cells s e).cell_at ⟨x, s.y⟩ ≠ GridCell.Wall) ∧
    (∀ y, min s.y e.y ≤ y → y ≤ max s.y e.y →
      (m.connect_cells s e).cell_at ⟨e.x, y⟩ ≠ GridCell.Wall) := by
  by_cases hx : s.x < e.x
  · have hxne : s.x ≠ e.x := by omega
    by_cases hy : s.y < e.y
    · have hyne : s.y ≠ e.y := by omega
      have hM : m.connect_cells s e =
          ((((m.supplement_cell s EAST).straight_path (rustRange (s.x + 1) e.x) true s.y
            ).supplement_cell e SOUTH).straight_path (rustRange (s.y + 1) e.y) false e.x
          ).supplement_cell ⟨e.x, s.y⟩ (corner_v s e) := by
        unfold connect_cells
        rw [if_neg hse]
        dsimp only
        rw [if_pos hxne, if_pos hx, if_pos hyne, if_pos hy]
      have hleAM : MapLE (m.supplement_cell s EAST) (m.connect_cells s e) := by
        rw [hM]
        exact (MapLE.straight _ _ _ _).trans ((MapLE.supplement _ _ _).trans
          ((MapLE.straight _ _ _ _).trans (MapLE.supplement _ _ _)))
      have hleBM : MapLE ((m.supplement_cell s EAST).straight_path
          (rustRange (s.x + 1) e.x) true s.y) (m.connect_cells s e) := by
        rw [hM]
        exact (MapLE.supplement _ _ _).trans
          ((MapLE.straight _ _ _ _).trans (MapLE.supplement _ _ _))
      have hleCM : MapLE (((m.supplement_cell s EAST).straight_path
          (rustRange (s.x + 1) e.x) true s.y).supplement_cell e SOUTH)
          (m.connect_cells s e) := by
        rw [hM]
        exact (MapLE.straight _ _ _ _).trans (MapLE.supplement _ _ _)
      have hleDM : MapLE ((((m.supplement_cell s EAST).straight_path
          (rustRange (s.x + 1) e.x) true s.y).supplement_cell e SOUTH).straight_path
          (rustRange (s.y + 1) e.y) false e.x) (m.connect_cells s e) := by
        rw [hM]
        exact MapLE.supplement _ _ _
      constructor
      · intro x hx1 hx2
        by_cases hxx : x = s.x
        · have hcs : (⟨x, s.y⟩ : Coordinates) = s := by ext <;> simp [hxx]
          rw [hcs]
          exact hleAM.wall_le s (cell_at_supplement_self m s EAST)
        · by_cases hxe : x = e.x
          · have hcs : (⟨x, s.y⟩ : Coordinates) = ⟨e.x, s.y⟩ := by rw [hxe]
            rw [hcs, hM]
            exact cell_at_supplement_self _ _ _
          · apply hleBM.wall_le
            have := straight_nonwall (rustRange (s.x + 1) e.x) (m.supplement_cell s EAST)
              true s.y x (rustRange_mem.mpr (by omega))
            simpa using this
      · intro y hy1 hy2
        by_cases hyy : y = s.y
        · have hcs : (⟨e.x, y⟩ : Coordinates) = ⟨e.x, s.y⟩ := by rw [hyy]
          rw [hcs, hM]
          exact cell_at_supplement_self _ _ _
        · by_cases hye : y = e.y
          · have hcs : (⟨e.x, y⟩ : Coordinates) = e := by ext <;> simp [hye]
            rw [hcs]
            exact hleCM.wall_le e (cell_at_supplement_self _ e SOUTH)
          · apply hleDM.wall_le
            have := straight_nonwall (rustRange (s.y + 1) e.y)
              (((m.supplement_cell s EAST).straight_path (rustRange (s.x + 1) e.x) true
                s.y).supplement_cell e SOUTH) false e.x y (rustRange_mem.mpr (by omega))
            simpa using this
    · by_cases hy2 : e.y < s.y
      · have hyne : s.y ≠ e.y := by omega
        have hM : m.connect_cells s e =
            ((((m.supplement_cell s EAST).straight_path (rustRange (s.x + 1) e.x) true s.y
              ).supplement_cell e NORTH).straight_path (rustRange (e.y + 1) s.y) false e.x
            ).supplement_cell ⟨e.x, s.y⟩ (corner_v s e) := by
          unfold connect_cells
          rw [if_neg hse]
          dsimp only
          rw [if_pos hxne, if_pos hx, if_pos hyne, if_neg hy]
        have hleAM : MapLE (m.supplement_cell s EAST) (m.connect_cells s e) := by
          rw [hM]
          exact (MapLE.straight _ _ _ _).trans ((MapLE.supplement _ _ _).trans
            ((MapLE.straight _ _ _ _).trans (MapLE.supplement _ _ _)))
        have hleBM : MapLE ((m.supplement_cell s EAST).straight_path
            (rustRange (s.x + 1) e.x) true s.y) (m.connect_cells s e) := by
          rw [hM]
          exact (MapLE.supplement _ _ _).trans
            ((MapLE.straight _ _ _ _).trans (MapLE.supplement _ _ _))
        have hleCM : MapLE (((m.supplement_cell s EAST).straight_path
            (rustRange (s.x + 1) e.x) true s.y).supplement_cell e NORTH)
            (m.connect_cells s e) := by
          rw [hM]
          exact (MapLE.straight _ _ _ _).trans (MapLE.supplement _ _ _)
        have hleDM : MapLE ((((m.supplement_cell s EAST).straight_path
            (rustRange (s.x + 1) e.x) true s.y).supplement_cell e NORTH).straight_path
            (rustRange (e.y + 1) s.y) false e.x) (m.connect_cells s e) := by
          rw [hM]
          exact MapLE.supplement _ _ _
        constructor
        · intro x hx1 hx2
          by_cases hxx : x = s.x
          · have hcs : (⟨x, s.y⟩ : Coordinates) = s := by ext <;> simp [hxx]
            rw [hcs]
            exact hleAM.wall_le s (cell_at_supplement_self m s EAST)
          · by_cases hxe : x = e.x
            · have hcs : (⟨x, s.y⟩ : Coordinates) = ⟨e.x, s.y⟩ := by rw [hxe]
              rw [hcs, hM]
              exact cell_at_supplement_self _ _ _
            · apply hleBM.wall_le
              have := straight_nonwall (rustRange (s.x + 1) e.x) (m.supplement_cell s EAST)
                true s.y x (rustRange_mem.mpr (by omega))
              simpa using this
        · intro y hy1 hy2
          by_cases hyy : y = s.y
          · have hcs : (⟨e.x, y⟩ : Coordinates) = ⟨e.x, s.y⟩ := by rw [hyy]
            rw [hcs, hM]
            exact cell_at_supplement_self _ _ _
          · by_cases hye : y = e.y
            · have hcs : (⟨e.x, y⟩ : Coordinates) = e := by ext <;> simp [hye]
              rw [hcs]
              exact hleCM.wall_le e (cell_at_supplement_self _ e NORTH)
            · apply hleDM.wall_le
              have := straight_nonwall (rustRange (e.y + 1) s.y)
                (((m.supplement_cell s EAST).straight_path (rustRange (s.x + 1) e.x) true
                  s.y).supplement_cell e NORTH) false e.x y (rustRange_mem.mpr (by omega))
              simpa using this
      · have hyeq : s.y = e.y := by omega
        have hM : m.connect_cells s e =
            (((m.supplement_cell s EAST).straight_path (rustRange (s.x + 1) e.x) true s.y
              ).supplement_cell e (corner_h s e)).supplement_cell ⟨e.x, s.y⟩
                (corner_v s e) := by
          unfold connect_cells
          rw [if_neg hse]
          dsimp only
          rw [if_pos hxne, if_pos hx, if_neg (show ¬ (s.y ≠ e.y) from fun h2 => h2 hyeq)]
        have hleAM : MapLE (m.supplement_cell s EAST) (m.connect_cells s e) := by
          rw [hM]
          exact (MapLE.straight _ _ _ _).trans ((MapLE.supplement _ _ _).trans
            (MapLE.supplement _ _ _))
        have hleBM : MapLE ((m.supplement_cell s EAST).straight_path
            (rustRange (s.x + 1) e.x) true s.y) (m.connect_cells s e) := by
          rw [hM]
          exact (MapLE.supplement _ _ _).trans (MapLE.supplement _ _ _)
        constructor
        · intro x hx1 hx2
          by_cases hxx : x = s.x
          · have hcs : (⟨x, s.y⟩ : Coordinates) = s := by ext <;> simp [hxx]
            rw [hcs]
            exact hleAM.wall_le s (cell_at_supplement_self m s EAST)
          · by_cases hxe : x = e.x
            · have hcs : (⟨x, s.y⟩ : Coordinates) = ⟨e.x, s.y⟩ := by rw [hxe]
              rw [hcs, hM]
              exact cell_at_supplement_self _ _ _
            · apply hleBM.wall_le
              have := straight_nonwall (rustRange (s.x + 1) e.x) (m.supplement_cell s EAST)
                true s.y x (rustRange_mem.mpr (by omega))
              simpa using this
        · intro y hy1 hy2
          have hyy : y = s.y := by omega
          have hcs : (⟨e.x, y⟩ : Coordinates) = ⟨e.x, s.y⟩ := by rw [hyy]
          rw [hcs, hM]
          exact cell_at_supplement_self _ _ _
  · by_cases hx2 : e.x < s.x
    · have hxne : s.x ≠ e.x := by omega
      by_cases hy : s.y < e.y
      · have hyne : s.y ≠ e.y := by omega
        have hM : m.connect_cells s e =
            ((((m.supplement_cell s WEST).straight_path (rustRange (e.x + 1) s.x) true s.y
              ).supplement_cell e SOUTH).straight_path (rustRange (s.y + 1) e.y) false e.x
            ).supplement_cell ⟨e.x, s.y⟩ (corner_v s e) := by
          unfold connect_cells
          rw [if_neg hse]
          dsimp only
          rw [if_pos hxne, if_neg hx, if_pos hyne, if_pos hy]
        have hleAM : MapLE (m.supplement_cell s WEST) (m.connect_cells s e) := by
          rw [hM]
          exact (MapLE.straight _ _ _ _).trans ((MapLE.supplement _ _ _).trans
            ((MapLE.straight _ _ _ _).trans (MapLE.supplement _ _ _)))
        have hleBM : MapLE ((m.supplement_cell s WEST).straight_path
            (rustRange (e.x + 1) s.x) true s.y) (m.connect_cells s e) := by
          rw [hM]
          exact (MapLE.supplement _ _ _).trans
            ((MapLE.straight _ _ _ _).trans (MapLE.supplement _ _ _))
        have hleCM : MapLE (((m.supplement_cell s WEST).straight_path
            (rustRange (e.x + 1) s.x) true s.y).supplement_cell e SOUTH)
            (m.connect_cells s e) := by
          rw [hM]
          exact (MapLE.straight _ _ _ _).trans (MapLE.supplement _ _ _)
        have hleDM : MapLE ((((m.supplement_cell s WEST).straight_path
            (rustRange (e.x + 1) s.x) true s.y).supplement_cell e SOUTH).straight_path
            (rustRange (s.y + 1) e.y) false e.x) (m.connect_cells s e) := by
          rw [hM]
          exact MapLE.supplement _ _ _
        constructor
        · intro x hx1 hx2b
          by_cases hxx : x = s.x
          · have hcs : (⟨x, s.y⟩ : Coordinates) = s := by ext <;> simp [hxx]
            rw [hcs]
            exact hleAM.wall_le s (cell_at_supplement_self m s WEST)
          · by_cases hxe : x = e.x
            · have hcs : (⟨x, s.y⟩ : Coordinates) = ⟨e.x, s.y⟩ := by rw [hxe]
              rw [hcs, hM]
              exact cell_at_supplement_self _ _ _
            · apply hleBM.wall_le
              have := straight_nonwall (rustRange (e.x + 1) s.x) (m.supplement_cell s WEST)
                true s.y x (rustRange_mem.mpr (by omega))
              simpa using this
        · intro y hy1 hy2
          by_cases hyy : y = s.y
          · have hcs : (⟨e.x, y⟩ : Coordinates) = ⟨e.x, s.y⟩ := by rw [hyy]
            rw [hcs, hM]
            exact cell_at_supplement_self _ _ _
          · by_cases hye : y = e.y
            · have hcs : (⟨e.x, y⟩ : Coordinates) = e := by ext <;> simp [hye]
              rw [hcs]
              exact hleCM.wall_le e (cell_at_supplement_self _ e SOUTH)
            · apply hleDM.wall_le
              have := straight_nonwall (rustRange (s.y + 1) e.y)
                (((m.supplement_cell s WEST).straight_path (rustRange (e.x + 1) s.x) true
                  s.y).supplement_cell e SOUTH) false e.x y (rustRange_mem.mpr (by omega))
              simpa using this
      · by_cases hy2 : e.y < s.y
        · have hyne : s.y ≠ e.y := by omega
          have hM : m.connect_cells s e =
              ((((m.supplement_cell s WEST).straight_path (rustRange (e.x + 1) s.x) true
                s.y).supplement_cell e NORTH).straight_path (rustRange (e.y + 1) s.y)
                false e.x).supplement_cell ⟨e.x, s.y⟩ (corner_v s e) := by
            unfold connect_cells
            rw [if_neg hse]
            dsimp only
            rw [if_pos hxne, if_neg hx, if_pos hyne, if_neg hy]
          have hleAM : MapLE (m.supplement_cell s WEST) (m.connect_cells s e) := by
            rw [hM]
            exact (MapLE.straight _ _ _ _).trans ((MapLE.supplement _ _ _).trans
              ((MapLE.straight _ _ _ _).trans (MapLE.supplement _ _ _)))
          have hleBM : MapLE ((m.supplement_cell s WEST).straight_path
              (rustRange (e.x + 1) s.x) true s.y) (m.connect_cells s e) := by
            rw [hM]
            exact (MapLE.supplement _ _ _).trans
              ((MapLE.straight _ _ _ _).trans (MapLE.supplement _ _ _))
          have hleCM : MapLE (((m.supplement_cell s WEST).straight_path
              (rustRange (e.x + 1) s.x) true s.y).supplement_cell e NORTH)
              (m.connect_cells s e) := by
            rw [hM]
            exact (MapLE.straight _ _ _ _).trans (MapLE.supplement _ _ _)
          have hleDM : MapLE ((((m.supplement_cell s WEST).straight_path
              (rustRange (e.x + 1) s.x) true s.y).supplement_cell e NORTH).straight_path
              (rustRange (e.y + 1) s.y) false e.x) (m.connect_cells s e) := by
            rw [hM]
            exact MapLE.supplement _ _ _
          constructor
          · intro x hx1 hx2b
            by_cases hxx : x = s.x
            · have hcs : (⟨x, s.y⟩ : Coordinates) = s := by ext <;> simp [hxx]
              rw [hcs]
              exact hleAM.wall_le s (cell_at_supplement_self m s WEST)
            · by_cases hxe : x = e.x
              · have hcs : (⟨x, s.y⟩ : Coordinates) = ⟨e.x, s.y⟩ := by rw [hxe]
                rw [hcs, hM]
                exact cell_at_supplement_self _ _ _
              · apply hleBM.wall_le
                have := straight_nonwall (rustRange (e.x + 1) s.x)
                  (m.supplement_cell s WEST) true s.y x (rustRange_mem.mpr (by omega))
                simpa using this
          · intro y hy1 hy2b
            by_cases hyy : y = s.y
            · have hcs : (⟨e.x, y⟩ : Coordinates) = ⟨e.x, s.y⟩ := by rw [hyy]
              rw [hcs, hM]
              exact cell_at_supplement_self _ _ _
            · by_cases hye : y = e.y
              · have hcs : (⟨e.x, y⟩ : Coordinates) = e := by ext <;> simp [hye]
                rw [hcs]
                exact hleCM.wall_le e (cell_at_supplement_self _ e NORTH)
              · apply hleDM.wall_le
                have := straight_nonwall (rustRange (e.y + 1) s.y)
                  (((m.supplement_cell s WEST).straight_path (rustRange (e.x + 1) s.x) true
                    s.y).supplement_cell e NORTH) false e.x y (rustRange_mem.mpr (by omega))
                simpa using this
        · have hyeq : s.y = e.y := by omega
          have hM : m.connect_cells s e =
              (((m.supplement_cell s WEST).straight_path (rustRange (e.x + 1) s.x) true
                s.y).supplement_cell e (corner_h s e)).supplement_cell ⟨e.x, s.y⟩
                  (corner_v s e) := by
            unfold connect_cells
            rw [if_neg hse]
            dsimp only
            rw [if_pos hxne, if_neg hx,
              if_neg (show ¬ (s.y ≠ e.y) from fun h2 => h2 hyeq)]
          have hleAM : MapLE (m.supplement_cell s WEST) (m.connect_cells s e) := by
            rw [hM]
            exact (MapLE.straight _ _ _ _).trans ((MapLE.supplement _ _ _).trans
              (MapLE.supplement _ _ _))
          have hleBM : MapLE ((m.supplement_cell s WEST).straight_path
              (rustRange (e.x + 1) s.x) true s.y) (m.connect_cells s e) := by
            rw [hM]
            exact (MapLE.supplement _ _ _).trans (MapLE.supplement _ _ _)
          constructor
          · intro x hx1 hx2b
            by_cases hxx : x = s.x
            · have hcs : (⟨x, s.y⟩ : Coordinates) = s := by ext <;> simp [hxx]
              rw [hcs]
              exact hleAM.wall_le s (cell_at_supplement_self m s WEST)
            · by_cases hxe : x = e.x
              · have hcs : (⟨x, s.y⟩ : Coordinates) = ⟨e.x, s.y⟩ := by rw [hxe]
                rw [hcs, hM]
                exact cell_at_supplement_self _ _ _
              · apply hleBM.wall_le
                have := straight_nonwall (rustRange (e.x + 1) s.x)
                  (m.supplement_cell s WEST) true s.y x (rustRange_mem.mpr (by omega))
                simpa using this
          · intro y hy1 hy2b
            have hyy : y = s.y := by omega
            have hcs : (⟨e.x, y⟩ : Coordinates) = ⟨e.x, s.y⟩ := by rw [hyy]
            rw [hcs, hM]
            exact cell_at_supplement_self _ _ _
    · have hxeq : s.x = e.x := by omega
      have hyne : s.y ≠ e.y := by
        intro h2
        exact hse (by ext <;> omega)
      by_cases hy : s.y < e.y
      · have hM : m.connect_cells s e =
            (((m.supplement_cell s NORTH).supplement_cell e SOUTH).straight_path
              (rustRange (s.y + 1) e.y) false e.x).supplement_cell ⟨e.x, s.y⟩
                (corner_v s e) := by
          unfold connect_cells
          rw [if_neg hse]
          dsimp only
          rw [if_neg (show ¬ (s.x ≠ e.x) from fun h2 => h2 hxeq), if_pos hy, if_pos hyne,
            if_pos hy]
        have hleAM : MapLE (m.supplement_cell s NORTH) (m.connect_cells s e) := by
          rw [hM]
          exact (MapLE.supplement _ _ _).trans
            ((MapLE.straight _ _ _ _).trans (MapLE.supplement _ _ _))
        have hleCM : MapLE ((m.supplement_cell s NORTH).supplement_cell e SOUTH)
            (m.connect_cells s e) := by
          rw [hM]
          exact (MapLE.straight _ _ _ _).trans (MapLE.supplement _ _ _)
        have hleDM : MapLE (((m.supplement_cell s NORTH).supplement_cell e
            SOUTH).straight_path (rustRange (s.y + 1) e.y) false e.x)
            (m.connect_cells s e) := by
          rw [hM]
          exact MapLE.supplement _ _ _
        constructor
        · intro x hx1 hx2b
          have hxx : x = s.x := by omega
          have hcs : (⟨x, s.y⟩ : Coordinates) = s := by ext <;> simp [hxx]
          rw [hcs]
          exact hleAM.wall_le s (cell_at_supplement_self m s NORTH)
        · intro y hy1 hy2
          by_cases hyy : y = s.y
          · have hcs : (⟨e.x, y⟩ : Coordinates) = ⟨e.x, s.y⟩ := by rw [hyy]
            rw [hcs, hM]
            exact cell_at_supplement_self _ _ _
          · by_cases hye : y = e.y
            · have hcs : (⟨e.x, y⟩ : Coordinates) = e := by ext <;> simp [hye]
              rw [hcs]
              exact hleCM.wall_le e (cell_at_supplement_self _ e SOUTH)
            · apply hleDM.wall_le
              have := straight_nonwall (rustRange (s.y + 1) e.y)
                ((m.supplement_cell s NORTH).supplement_cell e SOUTH) false e.x y
                (rustRange_mem.mpr (by omega))
              simpa using this
      · have hy2 : e.y < s.y := by omega
        have hM : m.connect_cells s e =
            (((m.supplement_cell s SOUTH).supplement_cell e NORTH).straight_path
              (rustRange (e.y + 1) s.y) false e.x).supplement_cell ⟨e.x, s.y⟩
                (corner_v s e) := by
          unfold connect_cells
          rw [if_neg hse]
          dsimp only
          rw [if_neg (show ¬ (s.x ≠ e.x) from fun h2 => h2 hxeq), if_neg hy, if_pos hyne,
            if_neg hy]
        have hleAM : MapLE (m.supplement_cell s SOUTH) (m.connect_cells s e) := by
          rw [hM]
          exact (MapLE.supplement _ _ _).trans
            ((MapLE.straight _ _ _ _).trans (MapLE.supplement _ _ _))
        have hleCM : MapLE ((m.supplement_cell s SOUTH).supplement_cell e NORTH)
            (m.connect_cells s e) := by
          rw [hM]
          exact (MapLE.straight _ _ _ _).trans (MapLE.supplement _ _ _)
        have hleDM : MapLE (((m.supplement_cell s SOUTH).supplement_cell e
            NORTH).straight_path (rustRange (e.y + 1) s.y) false e.x)
            (m.connect_cells s e) := by
          rw [hM]
          exact MapLE.supplement _ _ _
        constructor
        · intro x hx1 hx2b
          have hxx : x = s.x := by omega
          have hcs : (⟨x, s.y⟩ : Coordinates) = s := by ext <;> simp [hxx]
          rw [hcs]
          exact hleAM.wall_le s (cell_at_supplement_self m s SOUTH)
        · intro y hy1 hy2b
          by_cases hyy : y = s.y
          · have hcs : (⟨e.x, y⟩ : Coordinates) = ⟨e.x, s.y⟩ := by rw [hyy]
            rw [hcs, hM]
            exact cell_at_supplement_self _ _ _
          · by_cases hye : y = e.y
            · have hcs : (⟨e.x, y⟩ : Coordinates) = e := by ext <;> simp [hye]
              rw [hcs]
              exact hleCM.wall_le e (cell_at_supplement_self _ e NORTH)
            · apply hleDM.wall_le
              have := straight_nonwall (rustRange (e.y + 1) s.y)
                ((m.supplement_cell s SOUTH).supplement_cell e NORTH) false e.x y
                (rustRange_mem.mpr (by omega))
              simpa using this

end Map

namespace Map

/-- Upper bound on the exit bits after one `connect_cells` call: every bit is
either an old bit of `m`, or lies on the carved horizontal segment pointing
along it (east short of the far end, west short of the near end), or on the
carved vertical segment pointing along it. -/
theorem connect_new_bits (m : Map) (s e : Coordinates) (hse : s ≠ e)
    (c : Coordinates) (d : ℕ) (hd : d ∈ [NORTH, SOUTH, EAST, WEST])
    (hbit : d &&& (m.connect_cells s e).exitsAt c ≠ 0) :
    d &&& m.exitsAt c ≠ 0 ∨
    (c.y = s.y ∧ min s.x e.x ≤ c.x ∧ c.x ≤ max s.x e.x ∧
      ((d = EAST ∧ c.x < max s.x e.x) ∨ (d = WEST ∧ min s.x e.x < c.x))) ∨
    (c.x = e.x ∧ min s.y e.y ≤ c.y ∧ c.y ≤ max s.y e.y ∧
      ((d = NORTH ∧ c.y < max s.y e.y) ∨ (d = SOUTH ∧ min s.y e.y < c.y))) := by
  by_cases hx : s.x < e.x
  · have hxne : s.x ≠ e.x := by omega
    by_cases hy : s.y < e.y
    · have hyne : s.y ≠ e.y := by omega
      have hM : m.connect_cells s e =
          ((((m.supplement_cell s EAST).straight_path (rustRange (s.x + 1) e.x) true s.y
            ).supplement_cell e SOUTH).straight_path (rustRange (s.y + 1) e.y) false e.x
          ).supplement_cell ⟨e.x, s.y⟩ (corner_v s e) := by
        unfold connect_cells
        rw [if_neg hse]
        dsimp only
        rw [if_pos hxne, if_pos hx, if_pos hyne, if_pos hy]
      have hcv : corner_v s e = WEST ||| NORTH := by
        unfold corner_v corner_h
        rw [if_pos hyne, if_pos hxne, if_pos hx, if_pos hy]
      rw [hM] at hbit
      rcases supplement_bits_sub _ _ _ c d hbit with hbit1 | ⟨hcs, hdb⟩
      · rcases straight_bits_sub _ _ _ _ c d hbit1 with hbit2 | ⟨coord, hcoord, hcs, hdb⟩
        · rcases supplement_bits_sub _ _ _ c d hbit2 with hbit3 | ⟨hcs, hdb⟩
          · rcases straight_bits_sub _ _ _ _ c d hbit3 with hbit4 | ⟨coord, hcoord, hcs, hdb⟩
            · rcases supplement_bits_sub _ _ _ c d hbit4 with hbit5 | ⟨hcs, hdb⟩
              · exact Or.inl hbit5
              · subst hcs
                have hdeq : d = EAST := cardinal_eq_of_bit hd (by decide) hdb
                subst hdeq
                refine Or.inr (Or.inl ⟨rfl, by omega, by omega, Or.inl ⟨rfl, by omega⟩⟩)
            · simp at hcs hdb
              subst hcs
              rw [rustRange_mem] at hcoord
              rcases bit_of_lor hdb with hdbb | hdbb
              · have hdeq : d = EAST := cardinal_eq_of_bit hd (by decide) hdbb
                subst hdeq
                refine Or.inr (Or.inl ⟨rfl, ?_, ?_, Or.inl ⟨rfl, ?_⟩⟩) <;>
                  dsimp only <;> omega
              · have hdeq : d = WEST := cardinal_eq_of_bit hd (by decide) hdbb
                subst hdeq
                refine Or.inr (Or.inl ⟨rfl, ?_, ?_, Or.inr ⟨rfl, ?_⟩⟩) <;>
                  dsimp only <;> omega
          · subst hcs
            have hdeq : d = SOUTH := cardinal_eq_of_bit hd (by decide) hdb
            subst hdeq
            refine Or.inr (Or.inr ⟨rfl, by omega, by omega, Or.inr ⟨rfl, by omega⟩⟩)
        · simp at hcs hdb
          subst hcs
          rw [rustRange_mem] at hcoord
          rcases bit_of_lor hdb with hdbb | hdbb
          · have hdeq : d = NORTH := cardinal_eq_of_bit hd (by decide) hdbb
            subst hdeq
            refine Or.inr (Or.inr ⟨rfl, ?_, ?_, Or.inl ⟨rfl, ?_⟩⟩) <;>
              dsimp only <;> omega
          · have hdeq : d = SOUTH := cardinal_eq_of_bit hd (by decide) hdbb
            subst hdeq
            refine Or.inr (Or.inr ⟨rfl, ?_, ?_, Or.inr ⟨rfl, ?_⟩⟩) <;>
              dsimp only <;> omega
      · subst hcs
        rw [hcv] at hdb
        rcases bit_of_lor hdb with hdbb | hdbb
        · have hdeq : d = WEST := cardinal_eq_of_bit hd (by decide) hdbb
          subst hdeq
          refine Or.inr (Or.inl ⟨rfl, ?_, ?_, Or.inr ⟨rfl, ?_⟩⟩) <;>
            dsimp only <;> omega
        · have hdeq : d = NORTH := cardinal_eq_of_bit hd (by decide) hdbb
          subst hdeq
          refine Or.inr (Or.inr ⟨rfl, ?_, ?_, Or.inl ⟨rfl, ?_⟩⟩) <;>
            dsimp only <;> omega
    · by_cases hy2 : e.y < s.y
      · have hyne : s.y ≠ e.y := by omega
        have hM : m.connect_cells s e =
            ((((m.supplement_cell s EAST).straight_path (rustRange (s.x + 1) e.x) true s.y
              ).supplement_cell e NORTH).straight_path (rustRange (e.y + 1) s.y) false e.x
            ).supplement_cell ⟨e.x, s.y⟩ (corner_v s e) := by
          unfold connect_cells
          rw [if_neg hse]
          dsimp only
          rw [if_pos hxne, if_pos hx, if_pos hyne, if_neg hy]
        have hcv : corner_v s e = WEST ||| SOUTH := by
          unfold corner_v corner_h
          rw [if_pos hyne, if_pos hxne, if_pos hx, if_neg hy]
        rw [hM] at hbit
        rcases supplement_bits_sub _ _ _ c d hbit with hbit1 | ⟨hcs, hdb⟩
        · rcases straight_bits_sub _ _ _ _ c d hbit1 with hbit2 | ⟨coord, hcoord, hcs, hdb⟩
          · rcases supplement_bits_sub _ _ _ c d hbit2 with hbit3 | ⟨hcs, hdb⟩
            · rcases straight_bits_sub _ _ _ _ c d hbit3 with
                hbit4 | ⟨coord, hcoord, hcs, hdb⟩
              · rcases supplement_bits_sub _ _ _ c d hbit4 with hbit5 | ⟨hcs, hdb⟩
                · exact Or.inl hbit5
                · subst hcs
                  have hdeq : d = EAST := cardinal_eq_of_bit hd (by decide) hdb
                  subst hdeq
                  refine Or.inr (Or.inl ⟨rfl, by omega, by omega, Or.inl ⟨rfl, by omega⟩⟩)
              · simp at hcs hdb
                subst hcs
                rw [rustRange_mem] at hcoord
                rcases bit_of_lor hdb with hdbb | hdbb
                · have hdeq : d = EAST := cardinal_eq_of_bit hd (by decide) hdbb
                  subst hdeq
                  refine Or.inr (Or.inl ⟨rfl, ?_, ?_, Or.inl ⟨rfl, ?_⟩⟩) <;>
                    dsimp only <;> omega
                · have hdeq : d = WEST := cardinal_eq_of_bit hd (by decide) hdbb
                  subst hdeq
                  refine Or.inr (Or.inl ⟨rfl, ?_, ?_, Or.inr ⟨rfl, ?_⟩⟩) <;>
                    dsimp only <;> omega
            · subst hcs
              have hdeq : d = NORTH := cardinal_eq_of_bit hd (by decide) hdb
              subst hdeq
              refine Or.inr (Or.inr ⟨rfl, by omega, by omega, Or.inl ⟨rfl, by omega⟩⟩)
          · simp at hcs hdb
            subst hcs
            rw [rustRange_mem] at hcoord
            rcases bit_of_lor hdb with hdbb | hdbb
            · have hdeq : d = NORTH := cardinal_eq_of_bit hd (by decide) hdbb
              subst hdeq
              refine Or.inr (Or.inr ⟨rfl, ?_, ?_, Or.inl ⟨rfl, ?_⟩⟩) <;>
                dsimp only <;> omega
            · have hdeq : d = SOUTH := cardinal_eq_of_bit hd (by decide) hdbb
              subst hdeq
              refine Or.inr (Or.inr ⟨rfl, ?_, ?_, Or.inr ⟨rfl, ?_⟩⟩) <;>
                dsimp only <;> omega
        · subst hcs
          rw [hcv] at hdb
          rcases bit_of_lor hdb with hdbb | hdbb
          · have hdeq : d = WEST := cardinal_eq_of_bit hd (by decide) hdbb
            subst hdeq
            refine Or.inr (Or.inl ⟨rfl, ?_, ?_, Or.inr ⟨rfl, ?_⟩⟩) <;>
              dsimp only <;> omega
          · have hdeq : d = SOUTH := cardinal_eq_of_bit hd (by decide) hdbb
            subst hdeq
            refine Or.inr (Or.inr ⟨rfl, ?_, ?_, Or.inr ⟨rfl, ?_⟩⟩) <;>
              dsimp only <;> omega
      · have hyeq : s.y = e.y := by omega
        have hM : m.connect_cells s e =
            (((m.supplement_cell s EAST).straight_path (rustRange (s.x + 1) e.x) true s.y
              ).supplement_cell e (corner_h s e)).supplement_cell ⟨e.x, s.y⟩
                (corner_v s e) := by
          unfold connect_cells
          rw [if_neg hse]
          dsimp only
          rw [if_pos hxne, if_pos hx, if_neg (show ¬ (s.y ≠ e.y) from fun h2 => h2 hyeq)]
        have hch : corner_h s e = WEST := by
          unfold corner_h
          rw [if_pos hxne, if_pos hx]
        have hcv0 : corner_v s e = 0 := by
          unfold corner_v
          rw [if_neg (show ¬ (s.y ≠ e.y) from fun h2 => h2 hyeq)]
        rw [hM] at hbit
        rcases supplement_bits_sub _ _ _ c d hbit with hbit1 | ⟨hcs, hdb⟩
        · rcases supplement_bits_sub _ _ _ c d hbit1 with hbit2 | ⟨hcs, hdb⟩
          · rcases straight_bits_sub _ _ _ _ c d hbit2 with hbit3 | ⟨coord, hcoord, hcs, hdb⟩
            · rcases supplement_bits_sub _ _ _ c d hbit3 with hbit4 | ⟨hcs, hdb⟩
              · exact Or.inl hbit4
              · subst hcs
                have hdeq : d = EAST := cardinal_eq_of_bit hd (by decide) hdb
                subst hdeq
                refine Or.inr (Or.inl ⟨rfl, by omega, by omega, Or.inl ⟨rfl, by omega⟩⟩)
            · simp at hcs hdb
              subst hcs
              rw [rustRange_mem] at hcoord
              rcases bit_of_lor hdb with hdbb | hdbb
              · have hdeq : d = EAST := cardinal_eq_of_bit hd (by decide) hdbb
                subst hdeq
                refine Or.inr (Or.inl ⟨rfl, ?_, ?_, Or.inl ⟨rfl, ?_⟩⟩) <;>
                  dsimp only <;> omega
              · have hdeq : d = WEST := cardinal_eq_of_bit hd (by decide) hdbb
                subst hdeq
                refine Or.inr (Or.inl ⟨rfl, ?_, ?_, Or.inr ⟨rfl, ?_⟩⟩) <;>
                  dsimp only <;> omega
          · subst hcs
            rw [hch] at hdb
            have hdeq : d = WEST := cardinal_eq_of_bit hd (by decide) hdb
            subst hdeq
            refine Or.inr (Or.inl ⟨hyeq.symm, by omega, by omega, Or.inr ⟨rfl, by omega⟩⟩)
        · rw [hcv0] at hdb
          exact absurd (Nat.and_zero d) hdb
  · by_cases hx2 : e.x < s.x
    · have hxne : s.x ≠ e.x := by omega
      by_cases hy : s.y < e.y
      · have hyne : s.y ≠ e.y := by omega
        have hM : m.connect_cells s e =
            ((((m.supplement_cell s WEST).straight_path (rustRange (e.x + 1) s.x) true s.y
              ).supplement_cell e SOUTH).straight_path (rustRange (s.y + 1) e.y) false e.x
            ).supplement_cell ⟨e.x, s.y⟩ (corner_v s e) := by
          unfold connect_cells
          rw [if_neg hse]
          dsimp only
          rw [if_pos hxne, if_neg hx, if_pos hyne, if_pos hy]
        have hcv : corner_v s e = EAST ||| NORTH := by
          unfold corner_v corner_h
          rw [if_pos hyne, if_pos hxne, if_neg hx, if_pos hy]
        rw [hM] at hbit
        rcases supplement_bits_sub _ _ _ c d hbit with hbit1 | ⟨hcs, hdb⟩
        · rcases straight_bits_sub _ _ _ _ c d hbit1 with hbit2 | ⟨coord, hcoord, hcs, hdb⟩
          · rcases supplement_bits_sub _ _ _ c d hbit2 with hbit3 | ⟨hcs, hdb⟩
            · rcases straight_bits_sub _ _ _ _ c d hbit3 with
                hbit4 | ⟨coord, hcoord, hcs, hdb⟩
              · rcases supplement_bits_sub _ _ _ c d hbit4 with hbit5 | ⟨hcs, hdb⟩
                · exact Or.inl hbit5
                · subst hcs
                  have hdeq : d = WEST := cardinal_eq_of_bit hd (by decide) hdb
                  subst hdeq
                  refine Or.inr (Or.inl ⟨rfl, by omega, by omega, Or.inr ⟨rfl, by omega⟩⟩)
              · simp at hcs hdb
                subst hcs
                rw [rustRange_mem] at hcoord
                rcases bit_of_lor hdb with hdbb | hdbb
                · have hdeq : d = EAST := cardinal_eq_of_bit hd (by decide) hdbb
                  subst hdeq
                  refine Or.inr (Or.inl ⟨rfl, ?_, ?_, Or.inl ⟨rfl, ?_⟩⟩) <;>
                    dsimp only <;> omega
                · have hdeq : d = WEST := cardinal_eq_of_bit hd (by decide) hdbb
                  subst hdeq
                  refine Or.inr (Or.inl ⟨rfl, ?_, ?_, Or.inr ⟨rfl, ?_⟩⟩) <;>
                    dsimp only <;> omega
            · subst hcs
              have hdeq : d = SOUTH := cardinal_eq_of_bit hd (by decide) hdb
              subst hdeq
              refine Or.inr (Or.inr ⟨rfl, by omega, by omega, Or.inr ⟨rfl, by omega⟩⟩)
          · simp at hcs hdb
            subst hcs
            rw [rustRange_mem] at hcoord
            rcases bit_of_lor hdb with hdbb | hdbb
            · have hdeq : d = NORTH := cardinal_eq_of_bit hd (by decide) hdbb
              subst hdeq
              refine Or.inr (Or.inr ⟨rfl, ?_, ?_, Or.inl ⟨rfl, ?_⟩⟩) <;>
                dsimp only <;> omega
            · have hdeq : d = SOUTH := cardinal_eq_of_bit hd (by decide) hdbb
              subst hdeq
              refine Or.inr (Or.inr ⟨rfl, ?_, ?_, Or.inr ⟨rfl, ?_⟩⟩) <;>
                dsimp only <;> omega
        · subst hcs
          rw [hcv] at hdb
          rcases bit_of_lor hdb with hdbb | hdbb
          · have hdeq : d = EAST := cardinal_eq_of_bit hd (by decide) hdbb
            subst hdeq
            refine Or.inr (Or.inl ⟨rfl, ?_, ?_, Or.inl ⟨rfl, ?_⟩⟩) <;>
              dsimp only <;> omega
          · have hdeq : d = NORTH := cardinal_eq_of_bit hd (by decide) hdbb
            subst hdeq
            refine Or.inr (Or.inr ⟨rfl, ?_, ?_, Or.inl ⟨rfl, ?_⟩⟩) <;>
              dsimp only <;> omega
      · by_cases hy2 : e.y < s.y
        · have hyne : s.y ≠ e.y := by omega
          have hM : m.connect_cells s e =
              ((((m.supplement_cell s WEST).straight_path (rustRange (e.x + 1) s.x) true
                s.y).supplement_cell e NORTH).straight_path (rustRange (e.y + 1) s.y)
                false e.x).supplement_cell ⟨e.x, s.y⟩ (corner_v s e) := by
            unfold connect_cells
            rw [if_neg hse]
            dsimp only
            rw [if_pos hxne, if_neg hx, if_pos hyne, if_neg hy]
          have hcv : corner_v s e = EAST ||| SOUTH := by
            unfold corner_v corner_h
            rw [if_pos hyne, if_pos hxne, if_neg hx, if_neg hy]
          rw [hM] at hbit
          rcases supplement_bits_sub _ _ _ c d hbit with hbit1 | ⟨hcs, hdb⟩
          · rcases straight_bits_sub _ _ _ _ c d hbit1 with hbit2 | ⟨coord, hcoord, hcs, hdb⟩
            · rcases supplement_bits_sub _ _ _ c d hbit2 with hbit3 | ⟨hcs, hdb⟩
              · rcases straight_bits_sub _ _ _ _ c d hbit3 with
                  hbit4 | ⟨coord, hcoord, hcs, hdb⟩
                · rcases supplement_bits_sub _ _ _ c d hbit4 with hbit5 | ⟨hcs, hdb⟩
                  · exact Or.inl hbit5
                  · subst hcs
                    have hdeq : d = WEST := cardinal_eq_of_bit hd (by decide) hdb
                    subst hdeq
                    refine Or.inr (Or.inl ⟨rfl, by omega, by omega,
                      Or.inr ⟨rfl, by omega⟩⟩)
                · simp at hcs hdb
                  subst hcs
                  rw [rustRange_mem] at hcoord
                  rcases bit_of_lor hdb with hdbb | hdbb
                  · have hdeq : d = EAST := cardinal_eq_of_bit hd (by decide) hdbb
                    subst hdeq
                    refine Or.inr (Or.inl ⟨rfl, ?_, ?_, Or.inl ⟨rfl, ?_⟩⟩) <;>
                      dsimp only <;> omega
                  · have hdeq : d = WEST := cardinal_eq_of_bit hd (by decide) hdbb
                    subst hdeq
                    refine Or.inr (Or.inl ⟨rfl, ?_, ?_, Or.inr ⟨rfl, ?_⟩⟩) <;>
                      dsimp only <;> omega
              · subst hcs
                have hdeq : d = NORTH := cardinal_eq_of_bit hd (by decide) hdb
                subst hdeq
                refine Or.inr (Or.inr ⟨rfl, by omega, by omega, Or.inl ⟨rfl, by omega⟩⟩)
            · simp at hcs hdb
              subst hcs
              rw [rustRange_mem] at hcoord
              rcases bit_of_lor hdb with hdbb | hdbb
              · have hdeq : d = NORTH := cardinal_eq_of_bit hd (by decide) hdbb
                subst hdeq
                refine Or.inr (Or.inr ⟨rfl, ?_, ?_, Or.inl ⟨rfl, ?_⟩⟩) <;>
                  dsimp only <;> omega
              · have hdeq : d = SOUTH := cardinal_eq_of_bit hd (by decide) hdbb
                subst hdeq
                refine Or.inr (Or.inr ⟨rfl, ?_, ?_, Or.inr ⟨rfl, ?_⟩⟩) <;>
                  dsimp only <;> omega
          · subst hcs
            rw [hcv] at hdb
            rcases bit_of_lor hdb with hdbb | hdbb
            · have hdeq : d = EAST := cardinal_eq_of_bit hd (by decide) hdbb
              subst hdeq
              refine Or.inr (Or.inl ⟨rfl, ?_, ?_, Or.inl ⟨rfl, ?_⟩⟩) <;>
                dsimp only <;> omega
            · have hdeq : d = SOUTH := cardinal_eq_of_bit hd (by decide) hdbb
              subst hdeq
              refine Or.inr (Or.inr ⟨rfl, ?_, ?_, Or.inr ⟨rfl, ?_⟩⟩) <;>
                dsimp only <;> omega
        · have hyeq : s.y = e.y := by omega
          have hM : m.connect_cells s e =
              (((m.supplement_cell s WEST).straight_path (rustRange (e.x + 1) s.x) true
                s.y).supplement_cell e (corner_h s e)).supplement_cell ⟨e.x, s.y⟩
                  (corner_v s e) := by
            unfold connect_cells
            rw [if_neg hse]
            dsimp only
            rw [if_pos hxne, if_neg hx,
              if_neg (show ¬ (s.y ≠ e.y) from fun h2 => h2 hyeq)]
          have hch : corner_h s e = EAST := by
            unfold corner_h
            rw [if_pos hxne, if_neg hx]
          have hcv0 : corner_v s e = 0 := by
            unfold corner_v
            rw [if_neg (show ¬ (s.y ≠ e.y) from fun h2 => h2 hyeq)]
          rw [hM] at hbit
          rcases supplement_bits_sub _ _ _ c d hbit with hbit1 | ⟨hcs, hdb⟩
          · rcases supplement_bits_sub _ _ _ c d hbit1 with hbit2 | ⟨hcs, hdb⟩
            · rcases straight_bits_sub _ _ _ _ c d hbit2 with
                hbit3 | ⟨coord, hcoord, hcs, hdb⟩
              · rcases supplement_bits_sub _ _ _ c d hbit3 with hbit4 | ⟨hcs, hdb⟩
                · exact Or.inl hbit4
                · subst hcs
                  have hdeq : d = WEST := cardinal_eq_of_bit hd (by decide) hdb
                  subst hdeq
                  refine Or.inr (Or.inl ⟨rfl, by omega, by omega, Or.inr ⟨rfl, by omega⟩⟩)
              · simp at hcs hdb
                subst hcs
                rw [rustRange_mem] at hcoord
                rcases bit_of_lor hdb with hdbb | hdbb
                · have hdeq : d = EAST := cardinal_eq_of_bit hd (by decide) hdbb
                  subst hdeq
                  refine Or.inr (Or.inl ⟨rfl, ?_, ?_, Or.inl ⟨rfl, ?_⟩⟩) <;>
                    dsimp only <;> omega
                · have hdeq : d = WEST := cardinal_eq_of_bit hd (by decide) hdbb
                  subst hdeq
                  refine Or.inr (Or.inl ⟨rfl, ?_, ?_, Or.inr ⟨rfl, ?_⟩⟩) <;>
                    dsimp only <;> omega
            · subst hcs
              rw [hch] at hdb
              have hdeq : d = EAST := cardinal_eq_of_bit hd (by decide) hdb
              subst hdeq
              refine Or.inr (Or.inl ⟨hyeq.symm, by omega, by omega,
                Or.inl ⟨rfl, by omega⟩⟩)
          · rw [hcv0] at hdb
            exact absurd (Nat.and_zero d) hdb
    · have hxeq : s.x = e.x := by omega
      have hyne : s.y ≠ e.y := by
        intro h2
        exact hse (by ext <;> omega)
      by_cases hy : s.y < e.y
      · have hM : m.connect_cells s e =
            (((m.supplement_cell s NORTH).supplement_cell e SOUTH).straight_path
              (rustRange (s.y + 1) e.y) false e.x).supplement_cell ⟨e.x, s.y⟩
                (corner_v s e) := by
          unfold connect_cells
          rw [if_neg hse]
          dsimp only
          rw [if_neg (show ¬ (s.x ≠ e.x) from fun h2 => h2 hxeq), if_pos hy, if_pos hyne,
            if_pos hy]
        have hcv : corner_v s e = 0 ||| NORTH := by
          unfold corner_v corner_h
          rw [if_pos hyne, if_neg (show ¬ (s.x ≠ e.x) from fun h2 => h2 hxeq), if_pos hy]
        rw [hM] at hbit
        rcases supplement_bits_sub _ _ _ c d hbit with hbit1 | ⟨hcs, hdb⟩
        · rcases straight_bits_sub _ _ _ _ c d hbit1 with hbit2 | ⟨coord, hcoord, hcs, hdb⟩
          · rcases supplement_bits_sub _ _ _ c d hbit2 with hbit3 | ⟨hcs, hdb⟩
            · rcases supplement_bits_sub _ _ _ c d hbit3 with hbit4 | ⟨hcs, hdb⟩
              · exact Or.inl hbit4
              · subst hcs
                have hdeq : d = NORTH := cardinal_eq_of_bit hd (by decide) hdb
                subst hdeq
                refine Or.inr (Or.inr ⟨hxeq, by omega, by omega, Or.inl ⟨rfl, by omega⟩⟩)
            · subst hcs
              have hdeq : d = SOUTH := cardinal_eq_of_bit hd (by decide) hdb
              subst hdeq
              refine Or.inr (Or.inr ⟨rfl, by omega, by omega, Or.inr ⟨rfl, by omega⟩⟩)
          · simp at hcs hdb
            subst hcs
            rw [rustRange_mem] at hcoord
            rcases bit_of_lor hdb with hdbb | hdbb
            · have hdeq : d = NORTH := cardinal_eq_of_bit hd (by decide) hdbb
              subst hdeq
              refine Or.inr (Or.inr ⟨rfl, ?_, ?_, Or.inl ⟨rfl, ?_⟩⟩) <;>
                dsimp only <;> omega
            · have hdeq : d = SOUTH := cardinal_eq_of_bit hd (by decide) hdbb
              subst hdeq
              refine Or.inr (Or.inr ⟨rfl, ?_, ?_, Or.inr ⟨rfl, ?_⟩⟩) <;>
                dsimp only <;> omega
        · subst hcs
          rw [hcv] at hdb
          rcases bit_of_lor hdb with hdbb | hdbb
          · exact absurd (Nat.and_zero d) hdbb
          · have hdeq : d = NORTH := cardinal_eq_of_bit hd (by decide) hdbb
            subst hdeq
            refine Or.inr (Or.inr ⟨rfl, ?_, ?_, Or.inl ⟨rfl, ?_⟩⟩) <;>
              dsimp only <;> omega
      · have hy2 : e.y < s.y := by omega
        have hM : m.connect_cells s e =
            (((m.supplement_cell s SOUTH).supplement_cell e NORTH).straight_path
              (rustRange (e.y + 1) s.y) false e.x).supplement_cell ⟨e.x, s.y⟩
                (corner_v s e) := by
          unfold connect_cells
          rw [if_neg hse]
          dsimp only
          rw [if_neg (show ¬ (s.x ≠ e.x) from fun h2 => h2 hxeq), if_neg hy, if_pos hyne,
            if_neg hy]
        have hcv : corner_v s e = 0 ||| SOUTH := by
          unfold corner_v corner_h
          rw [if_pos hyne, if_neg (show ¬ (s.x ≠ e.x) from fun h2 => h2 hxeq), if_neg hy]
        rw [hM] at hbit
        rcases supplement_bits_sub _ _ _ c d hbit with hbit1 | ⟨hcs, hdb⟩
        · rcases straight_bits_sub _ _ _ _ c d hbit1 with hbit2 | ⟨coord, hcoord, hcs, hdb⟩
          · rcases supplement_bits_sub _ _ _ c d hbit2 with hbit3 | ⟨hcs, hdb⟩
            · rcases supplement_bits_sub _ _ _ c d hbit3 with hbit4 | ⟨hcs, hdb⟩
              · exact Or.inl hbit4
              · subst hcs
                have hdeq : d = SOUTH := cardinal_eq_of_bit hd (by decide) hdb
                subst hdeq
                refine Or.inr (Or.inr ⟨hxeq, by omega, by omega, Or.inr ⟨rfl, by omega⟩⟩)
            · subst hcs
              have hdeq : d = NORTH := cardinal_eq_of_bit hd (by decide) hdb
              subst hdeq
              refine Or.inr (Or.inr ⟨rfl, by omega, by omega, Or.inl ⟨rfl, by omega⟩⟩)
          · simp at hcs hdb
            subst hcs
            rw [rustRange_mem] at hcoord
            rcases bit_of_lor hdb with hdbb | hdbb
            · have hdeq : d = NORTH := cardinal_eq_of_bit hd (by decide) hdbb
              subst hdeq
              refine Or.inr (Or.inr ⟨rfl, ?_, ?_, Or.inl ⟨rfl, ?_⟩⟩) <;>
                dsimp only <;> omega
            · have hdeq : d = SOUTH := cardinal_eq_of_bit hd (by decide) hdbb
              subst hdeq
              refine Or.inr (Or.inr ⟨rfl, ?_, ?_, Or.inr ⟨rfl, ?_⟩⟩) <;>
                dsimp only <;> omega
        · subst hcs
          rw [hcv] at hdb
          rcases bit_of_lor hdb with hdbb | hdbb
          · exact absurd (Nat.and_zero d) hdbb
          · have hdeq : d = SOUTH := cardinal_eq_of_bit hd (by decide) hdbb
            subst hdeq
            refine Or.inr (Or.inr ⟨rfl, ?_, ?_, Or.inr ⟨rfl, ?_⟩⟩) <;>
              dsimp only <;> omega

end Map

namespace Map

/-- Every exit bit present after one `connect_cells` call between two
in-bounds cells points at an in-bounds non-Wall cell, provided the map
already satisfied that invariant: an old bit keeps its old target (walls
never return), and a new bit points inward along the freshly carved
corridor, whose cells are non-Wall. -/
theorem connect_good (m : Map) (s e : Coordinates)
    (hsx : s.x < m.width) (hsy : s.y < m.height)
    (hex : e.x < m.width) (hey : e.y < m.height)
    (hg : good_map m) : good_map (m.connect_cells s e) := by
  by_cases hse : s = e
  · unfold connect_cells
    rw [if_pos hse]
    exact hg
  · intro c hcx hcy d hd hbit
    have hle := MapLE.connect m s e
    rw [hle.width_eq] at hcx
    rw [hle.height_eq] at hcy
    obtain ⟨hnwH, hnwV⟩ := connect_nonwall m s e hse
    rcases connect_new_bits m s e hse c d hd hbit with hold | hH | hV
    · exact goodAt_mono hle (hg c hcx hcy d hd hold)
    · obtain ⟨hcy2, hmin, hmax, hEW⟩ := hH
      rcases hEW with ⟨rfl, hlt⟩ | ⟨rfl, hlt⟩
      · refine goodAt_east _ c ?_ ?_ ?_
        · rw [hle.width_eq]; omega
        · rw [hle.height_eq]; omega
        · rw [hcy2]; exact hnwH (c.x + 1) (by omega) (by omega)
      · refine goodAt_west _ c ?_ ?_ ?_ ?_
        · omega
        · rw [hle.width_eq]; omega
        · rw [hle.height_eq]; omega
        · rw [hcy2]; exact hnwH (c.x - 1) (by omega) (by omega)
    · obtain ⟨hcx2, hmin, hmax, hNS⟩ := hV
      rcases hNS with ⟨rfl, hlt⟩ | ⟨rfl, hlt⟩
      · refine goodAt_north _ c ?_ ?_ ?_
        · rw [hle.width_eq]; omega
        · rw [hle.height_eq]; omega
        · rw [hcx2]; exact hnwV (c.y + 1) (by omega) (by omega)
      · refine goodAt_south _ c ?_ ?_ ?_ ?_
        · omega
        · rw [hle.width_eq]; omega
        · rw [hle.height_eq]; omega
        · rw [hcx2]; exact hnwV (c.y - 1) (by omega) (by omega)

/-- `place_item` changes only the optional item of one Path cell: the
dimensions, the exit bitmasks, and the Wall/non-Wall status of every cell
are exactly preserved (in both directions). -/
theorem place_item_exits {m m2 : Map} {c : Coordinates} {it : ItemSpec}
    (h : m.place_item c it = some m2) :
    m2.width = m.width ∧ m2.height = m.height ∧
    (∀ c2, m2.exitsAt c2 = m.exitsAt c2) ∧
    (∀ c2, m2.cell_at c2 = GridCell.Wall ↔ m.cell_at c2 = GridCell.Wall) := by
  unfold Map.place_item at h
  cases hc : m.cell_at c with
  | Wall => rw [hc] at h; cases h
  | Goal exits => rw [hc] at h; cases h
  | Path exits item =>
    rw [hc] at h
    obtain rfl : m.set_cell c (GridCell.Path exits (some it)) = m2 := Option.some.inj h
    refine ⟨by simp, by simp, ?_, ?_⟩
    · intro c2
      unfold exitsAt
      rw [cell_at_set_cell]
      by_cases hcc : c2 = c
      · rw [if_pos hcc, hcc, hc]
      · rw [if_neg hcc]
    · intro c2
      rw [cell_at_set_cell]
      by_cases hcc : c2 = c
      · rw [if_pos hcc, hcc, hc]
        simp
      · rw [if_neg hcc]

/-- Placing an item keeps the no-dangling-exit invariant: exits and walls
are untouched. -/
theorem place_item_good {m m2 : Map} {c : Coordinates} {it : ItemSpec}
    (h : m.place_item c it = some m2) (hg : good_map m) : good_map m2 := by
  obtain ⟨hw, hh, hex, hwall⟩ := place_item_exits h
  intro c2 hcx hcy d hd hbit
  rw [hw] at hcx
  rw [hh] at hcy
  rw [hex] at hbit
  obtain ⟨c3, hstep, h3x, h3y, hnw⟩ := hg c2 hcx hcy d hd hbit
  refine ⟨c3, ?_, ?_, ?_, ?_⟩
  · rw [hw, hh]; exact hstep
  · rw [hw]; exact h3x
  · rw [hh]; exact h3y
  · exact fun hW => hnw ((hwall c3).mp hW)

/-- Replacing only the starting-point list does not affect the
no-dangling-exit invariant. -/
theorem good_map_starts (m : Map) (l : List Coordinates) (hg : good_map m) :
    good_map { m with starting_points := l } := by
  intro c hcx hcy d hd hbit
  obtain ⟨c2, hstep, h2x, h2y, hnw⟩ := hg c hcx hcy d hd hbit
  exact ⟨c2, hstep, h2x, h2y, hnw⟩

/-- Step 3 of the generator (one corridor per player) keeps the
no-dangling-exit invariant. -/
theorem players_loop_good (travel : ℕ) :
    ∀ (n : ℕ) (m : Map) (rng : List ℕ) (m2 : Map) (r2 : List ℕ),
      players_loop travel n m rng = some (m2, r2) →
      0 < m.width → 0 < m.height →
      m.goal.x < m.width → m.goal.y < m.height →
      good_map m → good_map m2 := by
  intro n
  induction n with
  | zero =>
    intro m rng m2 r2 h _ _ _ _ hgood
    rw [players_loop] at h
    simp only [Option.some.injEq, Prod.mk.injEq] at h
    rw [← h.1]
    exact hgood
  | succ n ih =>
    intro m rng m2 r2 h hw hh hgx hgy hgood
    rw [players_loop] at h
    cases hs : m.get_random_cell_with_distance m.goal travel rng with
    | none => rw [hs] at h; cases h
    | some pr =>
      obtain ⟨start, r1⟩ := pr
      rw [hs] at h
      dsimp only at h
      obtain ⟨hstx, hsty⟩ :=
        get_random_cell_with_distance_inbounds m m.goal travel rng hgx hgy start r1 hs
      have hle1 : MapLE m { m.connect_cells start m.goal with
          starting_points := (m.connect_cells start m.goal).starting_points ++ [start] } :=
        (MapLE.connect m start m.goal).trans (MapLE.push_start _ _)
      have hgood1 : good_map { m.connect_cells start m.goal with
          starting_points := (m.connect_cells start m.goal).starting_points ++ [start] } :=
        good_map_starts _ _ (connect_good m start m.goal hstx hsty hgx hgy hgood)
      have hgoal1 : ({ m.connect_cells start m.goal with
          starting_points := (m.connect_cells start m.goal).starting_points ++ [start] }
            : Map).goal = m.goal := by
        simp
      exact ih _ r1 m2 r2 h
        (by rw [hle1.width_eq]; exact hw) (by rw [hle1.height_eq]; exact hh)
        (by rw [hgoal1, hle1.width_eq]; exact hgx)
        (by rw [hgoal1, hle1.height_eq]; exact hgy) hgood1

/-- Step 4 of the generator (item placement with a connecting corridor per
pair) keeps the no-dangling-exit invariant. -/
theorem items_loop_good :
    ∀ (n : ℕ) (m : Map) (rng : List ℕ) (m2 : Map) (r2 : List ℕ),
      items_loop n m rng = some (m2, r2) →
      0 < m.width → 0 < m.height →
      good_map m → good_map m2 := by
  intro n
  induction n with
  | zero =>
    intro m rng m2 r2 h _ _ hgood
    rw [items_loop] at h
    simp only [Option.some.injEq, Prod.mk.injEq] at h
    rw [← h.1]
    exact hgood
  | succ n ih =>
    intro m rng m2 r2 h hw hh hgood
    rw [items_loop] at h
    cases h1 : m.get_random_empty_cell rng with
    | none => rw [h1] at h; cases h
    | some pr1 =>
      obtain ⟨square1, r1⟩ := pr1
      rw [h1] at h
      dsimp only at h
      cases h2 : random_item r1 with
      | none => rw [h2] at h; cases h
      | some pr2 =>
        obtain ⟨item1, r2a⟩ := pr2
        rw [h2] at h
        dsimp only at h
        cases h3 : m.get_random_empty_cell r2a with
        | none => rw [h3] at h; cases h
        | some pr3 =>
          obtain ⟨square2, r3⟩ := pr3
          rw [h3] at h
          dsimp only at h
          split_ifs at h with heq
          · exact ih m r3 m2 r2 h hw hh hgood
          · cases h4 : random_item r3 with
            | none => rw [h4] at h; cases h
            | some pr4 =>
              obtain ⟨item2, r4⟩ := pr4
              rw [h4] at h
              dsimp only at h
              cases h5 : (m.connect_cells square1 square2).place_item square1 item1 with
              | none => rw [h5] at h; cases h
              | some m3 =>
                rw [h5] at h
                dsimp only at h
                cases h6 : m3.place_item square2 item2 with
                | none => rw [h6] at h; cases h
                | some m4 =>
                  rw [h6] at h
                  dsimp only at h
                  obtain ⟨hs1x, hs1y⟩ :=
                    get_random_empty_cell_inbounds m hw hh rng square1 r1 h1
                  obtain ⟨hs2x, hs2y⟩ :=
                    get_random_empty_cell_inbounds m hw hh r2a square2 r3 h3
                  have hle1 : MapLE m m4 :=
                    ((MapLE.connect m square1 square2).trans (MapLE.place_item h5)).trans
                      (MapLE.place_item h6)
                  have hgood4 : good_map m4 :=
                    place_item_good h6 (place_item_good h5
                      (connect_good m square1 square2 hs1x hs1y hs2x hs2y hgood))
                  exact ih m4 r4 m2 r2 h
                    (by rw [hle1.width_eq]; exact hw)
                    (by rw [hle1.height_eq]; exact hh) hgood4

end Map

/-- C6: for every map actually returned by `Map::generate_random_map` (any
positive width and height, any player count, any item density in `[0, 0.8]`,
any travel distance within grid bounds, and any outcome of the random
sampling), every direction bit set in the exit bitmask of any in-bounds
cell points at an in-bounds neighboring cell that is not a Wall — the
no-dangling-exit invariant holds after generation completes. -/
theorem generate_random_map_good (w h players travel : ℕ) (density : ℚ)
    (rng : List ℕ) (m : Map) (hw : 0 < w) (hh : 0 < h)
    (hd0 : 0 ≤ density) (hd1 : density ≤ 4/5) (ht1 : 1 ≤ travel)
    (ht2 : travel ≤ min w h * 3 / 4)
    (hgen : Map.generate_random_map w h players density travel rng = some m) :
    Map.good_map m := by
  unfold Map.generate_random_map at hgen
  dsimp only at hgen
  set m0 : Map := ⟨w, h, fun _ => GridCell.Wall, ⟨0, 0⟩, []⟩ with hm0
  set gc := (m0.get_random_cell rng).1 with hgc
  set r1 := (m0.get_random_cell rng).2 with hr1
  set M2 : Map := (Map.mk w h (fun _ => GridCell.Wall) gc []).set_cell gc
    (GridCell.Goal 0) with hM2
  cases hp : Map.players_loop travel players M2 r1 with
  | none => rw [hp] at hgen; cases hgen
  | some pr =>
    obtain ⟨m3, r2⟩ := pr
    rw [hp] at hgen
    dsimp only at hgen
    cases hi : Map.items_loop (Map.ratRound (w * h * density) / 2) m3 r2 with
    | none => rw [hi] at hgen; cases hgen
    | some pr2 =>
      obtain ⟨m4, r4⟩ := pr2
      rw [hi] at hgen
      obtain rfl : m4 = m := Option.some.inj hgen
      have hgcx : gc.x < w := (Map.get_random_cell_inbounds m0 rng hw hh).1
      have hgcy : gc.y < h := (Map.get_random_cell_inbounds m0 rng hw hh).2
      have hgood2 : Map.good_map M2 := by
        intro c hcx hcy d hd hbit
        exfalso
        apply hbit
        unfold Map.exitsAt
        rw [hM2, Map.cell_at_set_cell]
        by_cases hcg : c = gc
        · rw [if_pos hcg]
          exact Nat.and_zero d
        · rw [if_neg hcg]
          exact Nat.and_zero d
      have hle3 : Map.MapLE M2 m3 :=
        (Map.players_loop_spec travel players M2 r1 m3 r2 hp hw hh hgcx hgcy
          (fun s hs => absurd hs (List.not_mem_nil s))).1
      have hgood3 : Map.good_map m3 :=
        Map.players_loop_good travel players M2 r1 m3 r2 hp hw hh hgcx hgcy hgood2
      exact Map.items_loop_good (Map.ratRound (w * h * density) / 2) m3 r2 m4 r4 hi
        (by rw [hle3.width_eq]; exact hw) (by rw [hle3.height_eq]; exact hh) hgood3

/-- A concrete generated map for the no-dangling-exit invariant: the same
3×3 generation with one player, no items, travel distance 1, sample list
`[0, 0, 1, 0]`. -/
def mapExampleC6 : Map :=
  (Map.generate_random_map 3 3 1 0 1 [0, 0, 1, 0]).getD
    (Map.mk 1 1 (fun _ => GridCell.Wall) ⟨0, 0⟩ [])

/-- Witness for C6 on the concrete 3×3 generation. -/
theorem generate_random_map_good_witness : Map.good_map mapExampleC6 :=
  generate_random_map_good 3 3 1 1 0 [0, 0, 1, 0] mapExampleC6
    (by decide) (by decide) (by with_unfolding_all decide)
    (by with_unfolding_all decide) (by decide) (by decide)
    (by with_unfolding_all rfl)
